import Mathlib

/-!
Verification of the deterministic selection engine (`kesimo.c`): grouped
insertion sort, value partitioning, median-of-medians selection, and the
separate Strassen matrix-multiplication routine.

The C heap is modelled shallowly: an `int` array is a total function
`Int → Int` from offsets to stored values (pointer arithmetic becomes offset
arithmetic), and every in-place mutation is explicit functional update.
C `int` values are modelled as unbounded `Int`; none of the verified code
performs arithmetic on stored values, so overflow is irrelevant, and the
sentinel `INT_MAX` is kept as the literal `2147483647`.
-/

namespace Kesimo

/-- An int array / pointer is modelled as a total function from `Int` offsets
to stored values. -/
abbrev Mem := Int → Int

/-- Functional update: models the C assignment `arr[i] = v`. -/
def upd (arr : Mem) (i : Int) (v : Int) : Mem :=
  fun t => if t = i then v else arr t

/-- Source lines 10-14: `trocar(&arr[a], &arr[b])` swaps the two cells
(`temp = *a; *a = *b; *b = temp`), i.e. the memory
`upd (upd arr a (arr b)) b (arr a)`, written pointwise: the cell `b` now
holds the saved `temp = arr a`, the cell `a` holds `arr b` (unless `a = b`,
where the second write wins with `temp`), everything else is untouched. -/
def trocar (arr : Mem) (a b : Int) : Mem :=
  fun t => if t = b then arr a else if t = a then arr b else arr t

/-- Source lines 26-29, inner `while` of `insertionSort`:
`while (j >= 0 && arr[j] > chave) { arr[j+1] = arr[j]; j--; }`.
The counter `jp` stands for `j + 1` (so the C loop variable `j` is `jp - 1`,
and `j >= 0` is `jp > 0`); `base` is the pointer the C code calls `arr`.
Returns the memory after the shifts together with the final `j + 1`. -/
def insLoop (arr : Mem) (base : Int) (chave : Int) : Nat → Mem × Nat
  | 0 => (arr, 0)
  | jp + 1 =>
    if arr (base + jp) > chave then
      insLoop (upd arr (base + jp + 1) (arr (base + jp))) base chave jp
    else (arr, jp + 1)

/-- Source lines 22-31, outer `for` of `insertionSort`, iteration at index
`i` with `c` iterations left (`c = n - i`): picks `chave = arr[i]`, runs the
shifting loop, then stores `arr[j+1] = chave`. -/
def insSortAux : Mem → Int → Nat → Nat → Mem
  | arr, _, _, 0 => arr
  | arr, base, i, c + 1 =>
    let chave := arr (base + i)
    let p := insLoop arr base chave i
    insSortAux (upd p.1 (base + p.2) chave) base (i + 1) c

/-- Source lines 21-32: `insertionSort(arr, n)` sorts `arr[0..n-1]` ascending
in place.  The C call sites pass an offset pointer `arr + base`, so the model
takes the base offset explicitly; the loop starts at `i = 1` and performs
`n - 1` iterations. -/
def insertionSort (arr : Mem) (base : Int) (n : Nat) : Mem :=
  insSortAux arr base 1 (n - 1)

/-- Source lines 44-47, first loop of `particionar`:
`for (i = l; i <= r; i++) if (arr[i] == pivo) break;`.
`c` counts the remaining iterations (`c = r + 1 - i`); when the loop runs out
the C index has reached `r + 1`, which is what the fuel-0 case returns. -/
def firstOccAux (arr : Mem) (pivo : Int) : Int → Nat → Int
  | i, 0 => i
  | i, c + 1 => if arr i = pivo then i else firstOccAux arr pivo (i + 1) c

/-- Source lines 51-57, Lomuto scan of `particionar`:
`for (j = l; j <= r - 1; j++) if (arr[j] <= pivo) { trocar(&arr[i], &arr[j]); i++; }`.
`c` counts remaining iterations (`c = r - j`).  Returns the memory and the
final boundary index `i`. -/
def lomutoAux (arr : Mem) (pivo : Int) : Int → Int → Nat → Mem × Int
  | i, _, 0 => (arr, i)
  | i, j, c + 1 =>
    if arr j ≤ pivo then
      lomutoAux (trocar arr i j) pivo (i + 1) (j + 1) c
    else
      lomutoAux arr pivo i (j + 1) c

/-- Source lines 42-61: `particionar(arr, l, r, pivo)` moves the first
occurrence of the value `pivo` to position `r`, runs the Lomuto scan, swaps
the pivot into the boundary position `i`, and returns `i` together with the
rearranged memory. -/
def particionar (arr : Mem) (l r : Int) (pivo : Int) : Mem × Int :=
  let i0 := firstOccAux arr pivo l (r + 1 - l).toNat
  let arr1 := trocar arr i0 r
  let p := lomutoAux arr1 pivo l l (r - l).toNat
  (trocar p.1 p.2 r, p.2)

/-- Source lines 86-89, full-groups loop of `kesimoMinimo`:
`for (i = 0; i < n / 5; i++) { insertionSort(arr + l + i*5, 5); medians[i] = arr[l + i*5 + 2]; }`.
`c` counts the remaining groups (`c = n / 5 - i`); `med` is the local
`medians` buffer, itself modelled as a `Mem`. -/
def gruposDe5 : Mem → Mem → Int → Nat → Nat → Mem × Mem
  | arr, med, _, _, 0 => (arr, med)
  | arr, med, l, i, c + 1 =>
    let arr2 := insertionSort arr (l + i * 5) 5
    gruposDe5 arr2 (upd med i (arr2 (l + i * 5 + 2))) l (i + 1) c

/-- Source lines 83-96 of `kesimoMinimo`: the grouping phase.  Sorts every
full block of 5, handles the trailing block of `n % 5` elements if present,
and returns the updated array, the `medians` buffer and the number of
medians (the final value of the C loop variable `i`).  The C `medians`
stack array is uninitialized; the model starts from the all-zero memory,
and every cell that is ever read is written first. -/
def grouped (arr : Mem) (l : Int) (n : Nat) : Mem × Mem × Nat :=
  let nf := n / 5
  let p := gruposDe5 arr (fun _ => 0) l 0 nf
  if nf * 5 < n then
    let resto := n % 5
    let arr2 := insertionSort p.1 (l + nf * 5) resto
    (arr2, upd p.2 nf (arr2 (l + nf * 5 + resto / 2)), nf + 1)
  else
    (p.1, p.2, nf)

/-- Source lines 71-132: `kesimoMinimo(arr, l, r, k)`, with an explicit fuel
bounding the recursion depth (the C function recurses without bound;
`kesimoFuel_isSome` below shows fuel `r - l + 1` always suffices, which is
the termination argument).  `none` means the fuel ran out; otherwise the
result is the final memory together with the returned value, the C code
returning `INT_MAX = 2147483647` when `k` is not in `[1, r - l + 1]`. -/
def kesimoFuel : Nat → Mem → Int → Int → Int → Option (Mem × Int)
  | 0, _, _, _, _ => none
  | fuel + 1, arr, l, r, k =>
    if k > 0 ∧ k ≤ r - l + 1 then
      let n : Nat := (r - l + 1).toNat
      let st := grouped arr l n
      let ramo := fun (arr2 : Mem) (medOfMed : Int) =>
        let pr := particionar arr2 l r medOfMed
        if pr.2 - l = k - 1 then some (pr.1, pr.1 pr.2)
        else if pr.2 - l > k - 1 then kesimoFuel fuel pr.1 l (pr.2 - 1) k
        else kesimoFuel fuel pr.1 (pr.2 + 1) r (k - (pr.2 - l) - 1)
      if st.2.2 = 1 then ramo st.1 (st.2.1 0)
      else
        match kesimoFuel fuel st.2.1 0 ((st.2.2 : Int) - 1) (((st.2.2 : Int) + 1) / 2) with
        | none => none
        | some q => ramo st.1 q.2
    else some (arr, 2147483647)

/-- The C function `kesimoMinimo`: the fuel `(r + 1 - l).toNat` is always
sufficient (proved below), so this is the exact behaviour of the source
function, including the `INT_MAX` result for an invalid rank. -/
def kesimoMinimo (arr : Mem) (l r k : Int) : Mem × Int :=
  (kesimoFuel (r + 1 - l).toNat arr l r k).getD (arr, 2147483647)

/-- Source lines 98-110 in isolation: the pivot computation (steps 1-3 of the
algorithm) with fuel for the recursive median-of-medians call.  Returns the
array after the grouping phase together with the chosen pivot value. -/
def pivotFuel (fuel : Nat) (arr : Mem) (l r : Int) : Option (Mem × Int) :=
  let st := grouped arr l (r - l + 1).toNat
  if st.2.2 = 1 then some (st.1, st.2.1 0)
  else
    match kesimoFuel fuel st.2.1 0 ((st.2.2 : Int) - 1) (((st.2.2 : Int) + 1) / 2) with
    | none => none
    | some q => some (st.1, q.2)

/-- The values stored at offsets `base, base + 1, ..., base + len - 1`:
the contents of the window a C call operates on. -/
def segN (arr : Mem) (base : Int) (len : Nat) : List Int :=
  (List.range len).map fun t : Nat => arr (base + (t : Int))

/-- Specification-side definition (spec sections 6 and 8): the k-th smallest
value of a finite multiset, i.e. the value at 0-based position `k - 1` of the
list sorted ascending. -/
def kthSmallest (xs : List Int) (k : Int) : Int :=
  (List.insertionSort (fun a b : Int => a ≤ b) xs).getD (k - 1).toNat 0

/-! ### Strassen matrix multiplication (second source file) -/

/-- A square integer matrix, modelled as a total function on indices;
only the entries with both indices below the dimension are meaningful. -/
abbrev Mat := Nat → Nat → Int

/-- Source lines 191-194: `somarMatrizes(n, A, B, C)` stores `A + B`
elementwise into `C`; the model returns the entries directly (the dimension
argument only bounds which entries the C code writes). -/
def somarMatrizes (A B : Mat) : Mat := fun i j => A i j + B i j

/-- Source lines 197-200: elementwise `A - B`. -/
def subtrairMatrizes (A B : Mat) : Mat := fun i j => A i j - B i j

/-- Source lines 249-341: one level of `strassen` for even `n = 2 * m`, with
`recur` standing for the recursive calls on `m`-sized blocks: quadrant
extraction, the products `P1..P7` of the seven sums `S1..S10`, the
recombination `C11..C22`, and the copy-back into the four quadrants of the
result. -/
def strassenStep (m : Nat) (recur : Mat → Mat → Mat) (A B : Mat) : Mat :=
  let A11 : Mat := fun i j => A i j
  let A12 : Mat := fun i j => A i (j + m)
  let A21 : Mat := fun i j => A (i + m) j
  let A22 : Mat := fun i j => A (i + m) (j + m)
  let B11 : Mat := fun i j => B i j
  let B12 : Mat := fun i j => B i (j + m)
  let B21 : Mat := fun i j => B (i + m) j
  let B22 : Mat := fun i j => B (i + m) (j + m)
  let P1 := recur A11 (subtrairMatrizes B12 B22)
  let P2 := recur (somarMatrizes A11 A12) B22
  let P3 := recur (somarMatrizes A21 A22) B11
  let P4 := recur A22 (subtrairMatrizes B21 B11)
  let P5 := recur (somarMatrizes A11 A22) (somarMatrizes B11 B22)
  let P6 := recur (subtrairMatrizes A12 A22) (somarMatrizes B21 B22)
  let P7 := recur (subtrairMatrizes A11 A21) (somarMatrizes B11 B12)
  let C11 := somarMatrizes (subtrairMatrizes (somarMatrizes P5 P4) P2) P6
  let C12 := somarMatrizes P1 P2
  let C21 := somarMatrizes P3 P4
  let C22 := subtrairMatrizes (subtrairMatrizes (somarMatrizes P5 P1) P3) P7
  fun i j =>
    if i < m then
      if j < m then C11 i j else C12 i (j - m)
    else
      if j < m then C21 (i - m) j else C22 (i - m) (j - m)

/-- Source lines 242-350: `strassen(n, A, B, C)`.  Base case `n = 1` is the
scalar product; otherwise one `strassenStep` at size `n / 2`.  For `n = 0`
the C function recurses forever (it calls itself with `novo_n = 0`), so no
claim concerns that input; the model returns the zero matrix there to stay
total. -/
def strassen (n : Nat) (A B : Mat) : Mat :=
  if n = 1 then fun _ _ => A 0 0 * B 0 0
  else if n ≤ 1 then fun _ _ => 0
  else strassenStep (n / 2) (strassen (n / 2)) A B
termination_by n
decreasing_by omega

/-- Specification-side definition: the standard matrix product,
`C i j = sum over t < n of A i t * B t j`. -/
def matMul (n : Nat) (A B : Mat) : Mat :=
  fun i j => ∑ t ∈ Finset.range n, A i t * B t j

/-! ### Basic lemmas about the memory model and windows -/

theorem upd_self (arr : Mem) (i v : Int) : upd arr i v i = v := by simp [upd]

theorem upd_other (arr : Mem) {i t : Int} (v : Int) (h : t ≠ i) : upd arr i v t = arr t := by
  simp [upd, h]

theorem trocar_fst (arr : Mem) {a b : Int} (h : b ≠ a) : trocar arr a b a = arr b := by
  simp [trocar, h.symm]

theorem trocar_snd (arr : Mem) (a b : Int) : trocar arr a b b = arr a := by
  simp [trocar]

theorem trocar_other (arr : Mem) {a b t : Int} (ha : t ≠ a) (hb : t ≠ b) :
    trocar arr a b t = arr t := by
  simp [trocar, ha, hb]

theorem length_segN (arr : Mem) (base : Int) (len : Nat) : (segN arr base len).length = len := by
  simp only [segN, List.length_map, List.length_range]

theorem getElem_segN (arr : Mem) (base : Int) {len t : Nat}
    (h2 : t < (segN arr base len).length) : (segN arr base len)[t] = arr (base + t) := by
  simp only [segN, List.getElem_map, List.getElem_range]

theorem segN_zero (arr : Mem) (base : Int) : segN arr base 0 = [] := by simp [segN]

theorem segN_one (arr : Mem) (base : Int) : segN arr base 1 = [arr base] := by
  simp [segN, List.range_succ]

theorem segN_succ (arr : Mem) (base : Int) (len : Nat) :
    segN arr base (len + 1) = segN arr base len ++ [arr (base + len)] := by
  simp [segN, List.range_succ]

theorem segN_add (arr : Mem) (base : Int) (p q : Nat) :
    segN arr base (p + q) = segN arr base p ++ segN arr (base + p) q := by
  induction q with
  | zero => simp [segN]
  | succ q ih =>
    rw [← Nat.add_assoc, segN_succ, ih, segN_succ, List.append_assoc]
    have h2 : base + ((p + q : Nat) : Int) = base + p + q := by push_cast; ring
    rw [h2]

theorem segN_congr {arr arr2 : Mem} {base : Int} {len : Nat}
    (h : ∀ t : Nat, t < len → arr (base + t) = arr2 (base + t)) :
    segN arr base len = segN arr2 base len := by
  apply List.ext_getElem (by simp [length_segN])
  intro t h1 h2
  rw [getElem_segN _ _ h1, getElem_segN _ _ h2]
  exact h t (by simpa [length_segN] using h1)

theorem mem_segN (arr : Mem) (base : Int) {len t : Nat} (h : t < len) :
    arr (base + t) ∈ segN arr base len := by
  simp only [segN, List.mem_map]
  exact ⟨t, by simp [h]⟩

theorem mem_segN_iff {arr : Mem} {base : Int} {len : Nat} {v : Int} :
    v ∈ segN arr base len ↔ ∃ t : Nat, t < len ∧ arr (base + t) = v := by
  simp only [segN, List.mem_map, List.mem_range]

theorem sorted_segN_iff {arr : Mem} {base : Int} {len : Nat} :
    (segN arr base len).Sorted (· ≤ ·) ↔
      ∀ t u : Nat, t < u → u < len → arr (base + t) ≤ arr (base + u) := by
  unfold List.Sorted
  rw [List.pairwise_iff_getElem]
  constructor
  · intro h t u htu hu
    have := h t u (by simp [length_segN]; omega) (by simp [length_segN]; omega) htu
    rwa [getElem_segN, getElem_segN] at this
  · intro h t u h1 h2 htu
    rw [getElem_segN _ _ h1, getElem_segN _ _ h2]
    exact h t u htu (by simpa [length_segN] using h2)

/-- Splitting a window at an interior position `m`. -/
theorem segN_split {arr : Mem} {l r m : Int} (hl : l ≤ m) (hr : m ≤ r) :
    segN arr l (r + 1 - l).toNat =
      segN arr l (m - l).toNat ++ arr m :: segN arr (m + 1) (r - m).toNat := by
  have h1 : (r + 1 - l).toNat = (m - l).toNat + (1 + (r - m).toNat) := by omega
  rw [h1, segN_add, segN_add]
  have hm : l + ((m - l).toNat : Int) = m := by omega
  rw [hm, segN_one]
  norm_num

/-- Two-base window congruence: windows with pointwise equal contents are
equal as lists. -/
theorem segN_congr2 {arr1 arr2 : Mem} {b1 b2 : Int} {len : Nat}
    (h : ∀ t : Nat, t < len → arr1 (b1 + t) = arr2 (b2 + t)) :
    segN arr1 b1 len = segN arr2 b2 len := by
  apply List.ext_getElem (by simp [length_segN])
  intro t h1 h2
  rw [getElem_segN _ _ h1, getElem_segN _ _ h2]
  exact h t (by simpa [length_segN] using h1)

theorem perm_swap_middle (X Y Z : List Int) (u v : Int) :
    (X ++ u :: (Y ++ v :: Z)).Perm (X ++ v :: (Y ++ u :: Z)) := by
  apply List.Perm.append_left
  exact (List.Perm.cons u List.perm_middle).trans
    ((List.Perm.swap v u (Y ++ Z)).trans (List.Perm.cons v List.perm_middle.symm))

/-- Swapping two cells inside a window permutes its contents. -/
theorem trocar_perm {arr : Mem} {l r a b : Int} (ha1 : l ≤ a) (ha2 : a ≤ r)
    (hb1 : l ≤ b) (hb2 : b ≤ r) :
    (segN (trocar arr a b) l (r + 1 - l).toNat).Perm (segN arr l (r + 1 - l).toNat) := by
  rcases lt_trichotomy a b with hab | hab | hab
  · rw [@segN_split (trocar arr a b) l r a ha1 ha2, @segN_split arr l r a ha1 ha2]
    have hsplit : ∀ m : Mem, segN m (a + 1) (r - a).toNat =
        segN m (a + 1) (b - (a + 1)).toNat ++ m b :: segN m (b + 1) (r - b).toNat := by
      intro m
      have : (r - a).toNat = (r + 1 - (a + 1)).toNat := by omega
      rw [this, segN_split (by omega) hb2]
    rw [hsplit, hsplit]
    have e1 : segN (trocar arr a b) l (a - l).toNat = segN arr l (a - l).toNat :=
      segN_congr2 fun t ht => trocar_other arr (by omega) (by omega)
    have e2 : segN (trocar arr a b) (a + 1) (b - (a + 1)).toNat =
        segN arr (a + 1) (b - (a + 1)).toNat :=
      segN_congr2 fun t ht => trocar_other arr (by omega) (by omega)
    have e3 : segN (trocar arr a b) (b + 1) (r - b).toNat = segN arr (b + 1) (r - b).toNat :=
      segN_congr2 fun t ht => trocar_other arr (by omega) (by omega)
    rw [e1, e2, e3, trocar_fst arr (by omega), trocar_snd]
    exact perm_swap_middle _ _ _ _ _
  · subst hab
    have : segN (trocar arr a a) l (r + 1 - l).toNat = segN arr l (r + 1 - l).toNat := by
      apply segN_congr
      intro t ht
      by_cases h : l + (t : Int) = a
      · rw [h, trocar_snd]
      · exact trocar_other arr h h
    rw [this]
  · rw [@segN_split (trocar arr a b) l r b hb1 hb2, @segN_split arr l r b hb1 hb2]
    have hsplit : ∀ m : Mem, segN m (b + 1) (r - b).toNat =
        segN m (b + 1) (a - (b + 1)).toNat ++ m a :: segN m (a + 1) (r - a).toNat := by
      intro m
      have : (r - b).toNat = (r + 1 - (b + 1)).toNat := by omega
      rw [this, segN_split (by omega) ha2]
    rw [hsplit, hsplit]
    have e1 : segN (trocar arr a b) l (b - l).toNat = segN arr l (b - l).toNat :=
      segN_congr2 fun t ht => trocar_other arr (by omega) (by omega)
    have e2 : segN (trocar arr a b) (b + 1) (a - (b + 1)).toNat =
        segN arr (b + 1) (a - (b + 1)).toNat :=
      segN_congr2 fun t ht => trocar_other arr (by omega) (by omega)
    have e3 : segN (trocar arr a b) (a + 1) (r - a).toNat = segN arr (a + 1) (r - a).toNat :=
      segN_congr2 fun t ht => trocar_other arr (by omega) (by omega)
    rw [e1, e2, e3, trocar_fst arr (by omega), trocar_snd]
    exact (perm_swap_middle _ _ _ _ _).symm

/-! ### Correctness of the embedded insertion sort -/

/-- Characterization of the shifting loop: it stops at some `jp' ≤ jp`,
touches only the cells `base + jp' + 1 .. base + jp` (shifting each value one
cell to the right), every shifted value was greater than `chave`, and the
value just below the stop position (if any) is at most `chave`. -/
theorem insLoop_spec (base chave : Int) :
    ∀ (jp : Nat) (arr arr' : Mem) (jp' : Nat), insLoop arr base chave jp = (arr', jp') →
      jp' ≤ jp ∧
      (∀ t : Int, (t < base + jp' + 1 ∨ base + jp < t) → arr' t = arr t) ∧
      (∀ u : Nat, jp' ≤ u → u < jp → arr' (base + u + 1) = arr (base + u)) ∧
      (∀ u : Nat, jp' ≤ u → u < jp → chave < arr (base + u)) ∧
      (jp' = 0 ∨ arr (base + jp' - 1) ≤ chave) := by
  intro jp
  induction jp with
  | zero =>
    intro arr arr' jp' h
    simp only [insLoop, Prod.mk.injEq] at h
    obtain ⟨rfl, rfl⟩ := h
    refine ⟨le_refl _, fun t _ => rfl, fun u h1 h2 => absurd h2 (by omega), fun u h1 h2 =>
      absurd h2 (by omega), Or.inl rfl⟩
  | succ u ih =>
    intro arr arr' jp' h
    rw [insLoop] at h
    by_cases hc : arr (base + u) > chave
    · rw [if_pos hc] at h
      obtain ⟨ha, hb, hcc, hd, he⟩ := ih _ _ _ h
      have hne : ∀ t : Int, t ≠ base + u + 1 →
          upd arr (base + u + 1) (arr (base + u)) t = arr t := fun t ht => upd_other _ _ ht
      refine ⟨by omega, ?_, ?_, ?_, ?_⟩
      · intro t ht
        rcases ht with ht | ht
        · rw [hb t (Or.inl ht), hne t (by omega)]
        · rw [hb t (Or.inr (by omega)), hne t (by omega)]
      · intro w h1 h2
        by_cases hw : w < u
        · rw [hcc w h1 hw, hne _ (by omega)]
        · have hw' : w = u := by omega
          subst hw'
          rw [hb _ (Or.inr (by omega)), upd_self]
      · intro w h1 h2
        by_cases hw : w < u
        · have := hd w h1 hw
          rwa [hne _ (by omega)] at this
        · have hw' : w = u := by omega
          subst hw'
          exact hc
      · rcases he with he | he
        · exact Or.inl he
        · right
          rwa [hne _ (by omega)] at he
    · rw [if_neg hc] at h
      simp only [Prod.mk.injEq] at h
      obtain ⟨rfl, rfl⟩ := h
      refine ⟨le_refl _, fun t _ => rfl, fun w h1 h2 => absurd h2 (by omega), fun w h1 h2 =>
        absurd h2 (by omega), Or.inr ?_⟩
      push_cast
      have : base + ((u : Int) + 1) - 1 = base + u := by ring
      rw [this]
      omega

/-- One iteration of the outer insertion-sort loop: inserting `arr[i]` into
the sorted prefix keeps the prefix of length `i + 1` sorted, permutes its
contents, and touches nothing outside `[base, base + i]`. -/
theorem insStep_spec {arr : Mem} {base : Int} {i : Nat}
    (hs : (segN arr base i).Sorted (· ≤ ·)) :
    (segN (upd (insLoop arr base (arr (base + i)) i).1
        (base + (insLoop arr base (arr (base + i)) i).2) (arr (base + i))) base (i + 1)).Sorted
        (· ≤ ·) ∧
    (segN (upd (insLoop arr base (arr (base + i)) i).1
        (base + (insLoop arr base (arr (base + i)) i).2) (arr (base + i))) base (i + 1)).Perm
        (segN arr base (i + 1)) ∧
    (∀ t : Int, (t < base ∨ base + i < t) →
      upd (insLoop arr base (arr (base + i)) i).1
        (base + (insLoop arr base (arr (base + i)) i).2) (arr (base + i)) t = arr t) := by
  set chave := arr (base + i) with hchave
  obtain ⟨arr', jp', hloop⟩ : ∃ a j, insLoop arr base chave i = (a, j) :=
    ⟨_, _, rfl⟩
  rw [hloop]
  obtain ⟨ha, hb, hc, hd, he⟩ := insLoop_spec base chave i arr arr' jp' hloop
  set arrN := upd arr' (base + jp') chave with harrN
  have hval0 : ∀ t : Nat, t < jp' → arrN (base + t) = arr (base + t) := by
    intro t ht
    rw [harrN, upd_other _ _ (by omega), hb _ (Or.inl (by omega))]
  have hval1 : arrN (base + jp') = chave := upd_self _ _ _
  have hval2 : ∀ t : Nat, t < i - jp' → arrN (base + jp' + 1 + t) = arr (base + jp' + t) := by
    intro t ht
    have h1 : (base + jp' + 1 + t : Int) = base + ((jp' + t : Nat) : Int) + 1 := by
      push_cast; ring
    have h2 : (base + jp' + t : Int) = base + ((jp' + t : Nat) : Int) := by push_cast; ring
    rw [harrN, upd_other _ _ (by omega), h1, h2]
    exact hc (jp' + t) (by omega) (by omega)
  -- decomposition of the new prefix into three windows over the old values
  have hdecomp : segN arrN base (i + 1) =
      segN arr base jp' ++ chave :: segN arr (base + jp') (i - jp') := by
    have hsum : i + 1 = jp' + (1 + (i - jp')) := by omega
    rw [hsum, segN_add, segN_add, segN_one]
    have p1 : segN arrN base jp' = segN arr base jp' := segN_congr fun t ht => hval0 t ht
    have p2 : arrN (base + jp') = chave := hval1
    have p3 : segN arrN (base + jp' + 1) (i - jp') = segN arr (base + jp') (i - jp') :=
      segN_congr2 fun t ht => hval2 t ht
    rw [p1, p2, ← p3]
    norm_num
  have hsorted0 : ∀ t u : Nat, t < u → u < i → arr (base + t) ≤ arr (base + u) :=
    sorted_segN_iff.mp hs
  refine ⟨?_, ?_, ?_⟩
  · -- sortedness of the new prefix
    rw [sorted_segN_iff]
    intro t u htu hu
    have hvt : ∀ w : Nat, w < i + 1 → (arrN (base + w) = chave ∧ w = jp') ∨
        (arrN (base + w) = arr (base + w) ∧ w < jp') ∨
        (arrN (base + w) = arr (base + ((w - 1 : Nat) : Int)) ∧ jp' < w) := by
      intro w hw
      rcases lt_trichotomy w jp' with hwj | hwj | hwj
      · exact Or.inr (Or.inl ⟨hval0 w hwj, hwj⟩)
      · subst hwj; exact Or.inl ⟨hval1, rfl⟩
      · right; right
        refine ⟨?_, hwj⟩
        have := hval2 (w - 1 - jp') (by omega)
        have e1 : (base + jp' + 1 + (w - 1 - jp' : Nat) : Int) = base + w := by omega
        have e2 : (base + jp' + (w - 1 - jp' : Nat) : Int) = base + (w - 1 : Nat) := by omega
        rwa [e1, e2] at this
    have hle : ∀ w : Nat, w < jp' → arr (base + w) ≤ chave := by
      intro w hw
      rcases he with he0 | he1
      · omega
      · have hj : (base + jp' - 1 : Int) = base + (jp' - 1 : Nat) := by omega
        rw [hj] at he1
        by_cases hw1 : w = jp' - 1
        · subst hw1; exact he1
        · exact le_trans (hsorted0 w (jp' - 1) (by omega) (by omega)) he1
    have hgt : ∀ w : Nat, jp' ≤ w → w < i → chave < arr (base + w) := hd
    rcases hvt t (by omega) with ⟨et, ht'⟩ | ⟨et, ht'⟩ | ⟨et, ht'⟩ <;>
      rcases hvt u hu with ⟨eu, hu'⟩ | ⟨eu, hu'⟩ | ⟨eu, hu'⟩ <;> rw [et, eu] <;>
      first
        | exact absurd htu (by omega)
        | exact le_of_lt (hgt (u - 1) (by omega) (by omega))
        | exact hle t (by omega)
        | exact hsorted0 t u htu (by omega)
        | exact le_trans (hle t (by omega)) (le_of_lt (hgt (u - 1) (by omega) (by omega)))
        | exact hsorted0 (t - 1) (u - 1) (by omega) (by omega)
  · -- permutation with the old prefix
    rw [hdecomp]
    have h1 : (segN arr base jp' ++ chave :: segN arr (base + jp') (i - jp')).Perm
        (chave :: (segN arr base jp' ++ segN arr (base + jp') (i - jp'))) := List.perm_middle
    have h2 : segN arr base jp' ++ segN arr (base + jp') (i - jp') = segN arr base i := by
      rw [← segN_add]
      congr 1
      omega
    rw [h2] at h1
    refine h1.trans ?_
    rw [segN_succ, ← hchave]
    exact (List.perm_append_singleton _ _).symm
  · intro t ht
    rw [harrN, upd_other _ _ (by omega), hb _ (by omega)]

/-- The outer insertion-sort loop, run to completion from a sorted prefix of
length `i ≥ 1`: the whole window of length `i + c` ends up sorted, with the
same multiset of values, and nothing outside `[base, base + i + c)` moves. -/
theorem insSortAux_spec : ∀ (c : Nat) (arr : Mem) (base : Int) (i : Nat), 1 ≤ i →
    (segN arr base i).Sorted (· ≤ ·) →
    (segN (insSortAux arr base i c) base (i + c)).Sorted (· ≤ ·) ∧
    (segN (insSortAux arr base i c) base (i + c)).Perm (segN arr base (i + c)) ∧
    (∀ t : Int, (t < base ∨ base + (i + c : Nat) ≤ t) → insSortAux arr base i c t = arr t) := by
  intro c
  induction c with
  | zero =>
    intro arr base i hi hs
    exact ⟨hs, List.Perm.refl _, fun t ht => rfl⟩
  | succ c ih =>
    intro arr base i hi hs
    rw [insSortAux]
    obtain ⟨s1, s2, s3⟩ := insStep_spec hs
    set arrN := upd (insLoop arr base (arr (base + i)) i).1
      (base + (insLoop arr base (arr (base + i)) i).2) (arr (base + i)) with harrN
    obtain ⟨t1, t2, t3⟩ := ih arrN base (i + 1) (by omega) s1
    have hlen : i + 1 + c = i + (c + 1) := by omega
    rw [hlen] at t1 t2 t3
    refine ⟨t1, ?_, ?_⟩
    · refine t2.trans ?_
      have hsum : i + (c + 1) = (i + 1) + c := by omega
      rw [hsum, segN_add arrN base (i + 1) c, segN_add arr base (i + 1) c]
      have e2 : segN arrN (base + (i + 1 : Nat)) c = segN arr (base + (i + 1 : Nat)) c :=
        segN_congr fun t ht => s3 _ (Or.inr (by push_cast; omega))
      rw [e2]
      exact s2.append_right _
    · intro t ht
      rw [t3 t (by rcases ht with h | h; exact Or.inl h; right; push_cast at h ⊢; omega)]
      exact s3 t (by rcases ht with h | h; exact Or.inl h; right; push_cast at h; omega)

/-- Source-level contract of `insertionSort(arr + base, n)`: the window
`[base, base + n)` is sorted ascending afterwards, holds the same multiset of
values, and no cell outside the window changes. -/
theorem insertionSort_spec (arr : Mem) (base : Int) (n : Nat) :
    (segN (insertionSort arr base n) base n).Sorted (· ≤ ·) ∧
    (segN (insertionSort arr base n) base n).Perm (segN arr base n) ∧
    (∀ t : Int, (t < base ∨ base + (n : Nat) ≤ t) → insertionSort arr base n t = arr t) := by
  rcases n with _ | m
  · refine ⟨by simp [segN_zero], by simp [insertionSort, insSortAux], fun t ht => rfl⟩
  · have h1 : m + 1 - 1 = m := by omega
    have h2 : 1 + m = m + 1 := by omega
    have := insSortAux_spec m arr base 1 (le_refl 1) (by rw [segN_one]; exact List.sorted_singleton _)
    rw [h2] at this
    rw [insertionSort, h1]
    exact this

/-- The embedded insertion sort computes exactly the specification-level
ascending sort of the window contents. -/
theorem insertionSort_eq_sort (arr : Mem) (base : Int) (n : Nat) :
    segN (insertionSort arr base n) base n =
      List.insertionSort (fun a b : Int => a ≤ b) (segN arr base n) := by
  obtain ⟨h1, h2, _⟩ := insertionSort_spec arr base n
  refine List.eq_of_perm_of_sorted ?_ h1 (List.sorted_insertionSort _ _)
  exact h2.trans (List.perm_insertionSort _ _).symm

/-! ### Correctness of the embedded Lomuto partition -/

/-- The pivot-search loop finds the first occurrence: if `pivo` occurs within
the next `c` cells from `i`, the returned index holds `pivo` and lies in
`[i, i + c)`. -/
theorem firstOccAux_spec (pivo : Int) :
    ∀ (c : Nat) (arr : Mem) (i : Int), (∃ t : Nat, t < c ∧ arr (i + t) = pivo) →
      arr (firstOccAux arr pivo i c) = pivo ∧ i ≤ firstOccAux arr pivo i c ∧
      firstOccAux arr pivo i c < i + c := by
  intro c
  induction c with
  | zero =>
    rintro arr i ⟨t, ht, _⟩
    omega
  | succ c ih =>
    rintro arr i ⟨t, ht, hv⟩
    rw [firstOccAux]
    by_cases h0 : arr i = pivo
    · rw [if_pos h0]
      exact ⟨h0, le_refl _, by omega⟩
    · rw [if_neg h0]
      have ht0 : t ≠ 0 := by
        intro h
        subst h
        simp at hv
        exact h0 hv
      obtain ⟨s, rfl⟩ : ∃ s, t = s + 1 := ⟨t - 1, by omega⟩
      have hv' : arr (i + 1 + s) = pivo := by
        have : (i + (s + 1 : Nat) : Int) = i + 1 + s := by push_cast; ring
        rwa [this] at hv
      obtain ⟨c1, c2, c3⟩ := ih arr (i + 1) ⟨s, by omega, hv'⟩
      exact ⟨c1, by omega, by omega⟩

/-- Invariant of the Lomuto scan: starting with the pivot parked at `r`, the
cells left of the boundary at most `pivo`, the cells between boundary and
scan index greater than `pivo`, the loop ends with a boundary in `[i, r]`
separating the window into the two regions, only permuting `[l, r]`. -/
theorem lomutoAux_spec (pivo l r : Int) :
    ∀ (c : Nat) (arr : Mem) (i j : Int),
      l ≤ i → i ≤ j → j + c = r →
      arr r = pivo →
      (∀ t : Int, l ≤ t → t < i → arr t ≤ pivo) →
      (∀ t : Int, i ≤ t → t < j → pivo < arr t) →
      ∀ arrO iO, lomutoAux arr pivo i j c = (arrO, iO) →
        i ≤ iO ∧ iO ≤ r ∧ arrO r = pivo ∧
        (∀ t : Int, l ≤ t → t < iO → arrO t ≤ pivo) ∧
        (∀ t : Int, iO ≤ t → t < r → pivo < arrO t) ∧
        (segN arrO l (r + 1 - l).toNat).Perm (segN arr l (r + 1 - l).toNat) ∧
        (∀ t : Int, (t < l ∨ r < t) → arrO t = arr t) := by
  intro c
  induction c with
  | zero =>
    intro arr i j hli hij hjc hr h1 h2 arrO iO h
    simp only [lomutoAux, Prod.mk.injEq] at h
    obtain ⟨rfl, rfl⟩ := h
    have hjr : j = r := by omega
    subst hjr
    exact ⟨le_refl _, hij, hr, h1, h2, List.Perm.refl _, fun t ht => rfl⟩
  | succ c ih =>
    intro arr i j hli hij hjc hr h1 h2 arrO iO h
    rw [lomutoAux] at h
    have hjr : j < r := by omega
    by_cases hc : arr j ≤ pivo
    · rw [if_pos hc] at h
      have hswap_q : ∀ t : Int, t ≠ i → t ≠ j → trocar arr i j t = arr t := fun t ha hb =>
        trocar_other arr ha hb
      have hgi : trocar arr i j i = arr j := by
        by_cases hij' : i = j
        · subst hij'
          simp [trocar]
        · exact trocar_fst arr fun hh => hij' hh.symm
      obtain ⟨c1, c2, c3, c4, c5, c6, c7⟩ := ih (trocar arr i j) (i + 1) (j + 1)
        (by omega) (by omega) (by push_cast at hjc ⊢; omega)
        (by rw [hswap_q r (by omega) (by omega)]; exact hr)
        (by
          intro t ht1 ht2
          by_cases hti : t = i
          · subst hti; rw [hgi]; exact hc
          · rw [hswap_q t hti (by omega)]
            exact h1 t ht1 (by omega))
        (by
          intro t ht1 ht2
          by_cases htj : t = j
          · subst htj
            rw [trocar_snd]
            exact h2 i (le_refl i) (by omega)
          · rw [hswap_q t (by omega) htj]
            exact h2 t (by omega) (by omega))
        arrO iO h
      refine ⟨by omega, c2, c3, c4, c5, ?_, ?_⟩
      · exact c6.trans (trocar_perm hli (by omega) (by omega) (by omega))
      · intro t ht
        rw [c7 t ht, hswap_q t (by omega) (by omega)]
    · rw [if_neg hc] at h
      obtain ⟨c1, c2, c3, c4, c5, c6, c7⟩ := ih arr i (j + 1)
        hli (by omega) (by push_cast at hjc ⊢; omega) hr h1
        (by
          intro t ht1 ht2
          by_cases htj : t = j
          · subst htj; omega
          · exact h2 t ht1 (by omega))
        arrO iO h
      exact ⟨c1, c2, c3, c4, c5, c6, c7⟩

/-- Source-level contract of `particionar` (spec section 4.2): when the pivot
value occurs in the window, the returned position `p` lies in `[l, r]`, the
cell at `p` holds the pivot, everything left of `p` within the window is
at most the pivot, everything right of it is greater, the window keeps its
multiset of values, and nothing outside `[l, r]` changes. -/
theorem particionar_spec {arr : Mem} {l r pivo : Int}
    (hmem : pivo ∈ segN arr l (r + 1 - l).toNat) :
    l ≤ (particionar arr l r pivo).2 ∧ (particionar arr l r pivo).2 ≤ r ∧
    (particionar arr l r pivo).1 (particionar arr l r pivo).2 = pivo ∧
    (∀ t : Int, l ≤ t → t < (particionar arr l r pivo).2 →
      (particionar arr l r pivo).1 t ≤ pivo) ∧
    (∀ t : Int, (particionar arr l r pivo).2 < t → t ≤ r →
      pivo < (particionar arr l r pivo).1 t) ∧
    (segN (particionar arr l r pivo).1 l (r + 1 - l).toNat).Perm
      (segN arr l (r + 1 - l).toNat) ∧
    (∀ t : Int, (t < l ∨ r < t) → (particionar arr l r pivo).1 t = arr t) := by
  obtain ⟨tw, htw, hvw⟩ := mem_segN_iff.mp hmem
  have hlr : l ≤ r := by omega
  obtain ⟨f1, f2, f3⟩ := firstOccAux_spec pivo (r + 1 - l).toNat arr l ⟨tw, htw, hvw⟩
  set i0 := firstOccAux arr pivo l (r + 1 - l).toNat with hi0
  have hi0r : i0 ≤ r := by omega
  set arr1 := trocar arr i0 r with harr1
  have harr1r : arr1 r = pivo := by rw [harr1, trocar_snd]; exact f1
  obtain ⟨arrO, iO, hlom⟩ : ∃ a b, lomutoAux arr1 pivo l l (r - l).toNat = (a, b) := ⟨_, _, rfl⟩
  obtain ⟨c1, c2, c3, c4, c5, c6, c7⟩ := lomutoAux_spec pivo l r (r - l).toNat arr1 l l
    (le_refl l) (le_refl l) (by omega) harr1r
    (fun t ht1 ht2 => absurd ht2 (by omega)) (fun t ht1 ht2 => absurd ht2 (by omega))
    arrO iO hlom
  have hres : particionar arr l r pivo = (trocar arrO iO r, iO) := by
    rw [particionar, ← hi0, ← harr1, hlom]
  rw [hres]
  dsimp only
  have hO : ∀ t : Int, t ≠ iO → t ≠ r → trocar arrO iO r t = arrO t := fun t ha hb =>
    trocar_other arrO ha hb
  have hpivpos : trocar arrO iO r iO = pivo := by
    by_cases hior : iO = r
    · subst hior; simp [trocar]; exact c3
    · rw [trocar_fst arrO fun hh => hior hh.symm]
      exact c3
  refine ⟨c1, c2, hpivpos, ?_, ?_, ?_, ?_⟩
  · intro t ht1 ht2
    rw [hO t (by omega) (by omega)]
    exact c4 t ht1 ht2
  · intro t ht1 ht2
    by_cases htr : t = r
    · subst htr
      rw [trocar_snd]
      exact c5 iO (le_refl iO) (by omega)
    · rw [hO t (by omega) (by omega)]
      exact c5 t (by omega) (by omega)
  · exact (trocar_perm c1 c2 hlr (le_refl r)).trans
      (c6.trans (trocar_perm f2 hi0r hlr (le_refl r)))
  · intro t ht
    rw [hO t (by omega) (by omega), c7 t ht, harr1,
      trocar_other arr (by omega) (by omega)]

/-! ### The grouping phase: medians of blocks of five -/

theorem getD_segN (arr : Mem) (base : Int) {len t : Nat} (h : t < len) :
    (segN arr base len).getD t 0 = arr (base + t) := by
  rw [List.getD_eq_getElem?_getD,
    List.getElem?_eq_getElem (by rw [length_segN]; exact h)]
  rw [Option.getD_some]
  exact getElem_segN arr base _

/-- The full-groups loop: it sorts each remaining block of five in place
(touching nothing outside them, and permuting their union), and stores into
the medians buffer, for each processed group `u`, the middle element of the
ascending sort of that group's original contents. -/
theorem gruposDe5_spec (l : Int) :
    ∀ (c : Nat) (arr med : Mem) (i : Nat) (arrO medO : Mem),
      gruposDe5 arr med l i c = (arrO, medO) →
      (∀ t : Int, (t < l + (i : Int) * 5 ∨ l + (i : Int) * 5 + (c : Int) * 5 ≤ t) →
        arrO t = arr t) ∧
      (segN arrO (l + (i : Int) * 5) (c * 5)).Perm (segN arr (l + (i : Int) * 5) (c * 5)) ∧
      (∀ t : Int, (t < (i : Int) ∨ (i : Int) + (c : Int) ≤ t) → medO t = med t) ∧
      (∀ u : Nat, i ≤ u → u < i + c →
        medO u = (List.insertionSort (fun a b : Int => a ≤ b)
          (segN arr (l + (u : Int) * 5) 5)).getD 2 0) := by
  intro c
  induction c with
  | zero =>
    intro arr med i arrO medO h
    simp only [gruposDe5, Prod.mk.injEq] at h
    obtain ⟨rfl, rfl⟩ := h
    exact ⟨fun t ht => rfl, List.Perm.refl _, fun t ht => rfl,
      fun u h1 h2 => absurd h2 (by omega)⟩
  | succ c ih =>
    intro arr med i arrO medO h
    rw [gruposDe5] at h
    obtain ⟨s1, s2, s3⟩ := insertionSort_spec arr (l + (i : Int) * 5) 5
    set arr2 := insertionSort arr (l + (i : Int) * 5) 5 with harr2
    set med2 := upd med (i : Int) (arr2 (l + (i : Int) * 5 + 2)) with hmed2
    obtain ⟨g1, g2, g3, g4⟩ := ih arr2 med2 (i + 1) arrO medO h
    have hbase : (l + ((i + 1 : Nat) : Int) * 5) = l + (i : Int) * 5 + 5 := by push_cast; ring
    refine ⟨?_, ?_, ?_, ?_⟩
    · intro t ht
      rw [g1 t (by rw [hbase]; push_cast at ht ⊢; omega)]
      exact s3 t (by push_cast at ht ⊢; omega)
    · have hsum : (c + 1) * 5 = 5 + c * 5 := by omega
      rw [hsum, segN_add arrO (l + (i : Int) * 5) 5 (c * 5),
        segN_add arr (l + (i : Int) * 5) 5 (c * 5)]
      norm_num
      have e1 : segN arrO (l + (i : Int) * 5) 5 = segN arr2 (l + (i : Int) * 5) 5 :=
        segN_congr fun t ht => g1 _ (by rw [hbase]; omega)
      have e2 : segN arr2 (l + (i : Int) * 5 + 5) (c * 5) =
          segN arr (l + (i : Int) * 5 + 5) (c * 5) :=
        segN_congr fun t ht => s3 _ (by push_cast; omega)
      rw [e1, ← e2]
      have g2' := g2
      rw [hbase] at g2'
      exact s2.append g2'
    · intro t ht
      rw [g3 t (by push_cast at ht ⊢; omega), hmed2, upd_other _ _ (by push_cast at ht ⊢; omega)]
    · intro u h1 h2
      by_cases hu : u = i
      · subst hu
        rw [g3 (u : Int) (Or.inl (by push_cast; omega)), hmed2, upd_self,
          ← insertionSort_eq_sort, ← harr2]
        rw [getD_segN arr2 (l + (u : Int) * 5) (by omega)]
        norm_num
      · have e : segN arr2 (l + (u : Int) * 5) 5 = segN arr (l + (u : Int) * 5) 5 :=
          segN_congr fun t ht => s3 _ (by push_cast; omega)
        rw [g4 u (by omega) (by omega), e]

/-- Windows embed: a value of a sub-window `[l + off, l + off + len)` of the
window `[l, l + n)` belongs to the larger window's contents. -/
theorem mem_segN_of_sub {arr : Mem} {l : Int} {n off len : Nat}
    (h : off + len ≤ n) {v : Int} (hv : v ∈ segN arr (l + (off : Int)) len) :
    v ∈ segN arr l n := by
  obtain ⟨t, ht, rfl⟩ := mem_segN_iff.mp hv
  rw [mem_segN_iff]
  refine ⟨off + t, by omega, ?_⟩
  congr 1
  push_cast
  ring

/-- Contract of the grouping phase (spec section 4.3, steps 1-2): it produces
`ceil(n / 5) = (n + 4) / 5` medians, only reorders the window (frame and
multiset preservation), every median is a value occurring in the window, the
median of each full block of five is the middle element of that block's
ascending sort, and the median of the trailing block of `n mod 5` elements is
the element at offset `(n mod 5) / 2` of its ascending sort. -/
theorem grouped_spec (arr : Mem) (l : Int) (n : Nat) :
    (grouped arr l n).2.2 = (n + 4) / 5 ∧
    (∀ t : Int, (t < l ∨ l + (n : Int) ≤ t) → (grouped arr l n).1 t = arr t) ∧
    (segN (grouped arr l n).1 l n).Perm (segN arr l n) ∧
    (∀ u : Nat, u < (grouped arr l n).2.2 → (grouped arr l n).2.1 u ∈ segN arr l n) ∧
    (∀ u : Nat, u < n / 5 → (grouped arr l n).2.1 u =
      (List.insertionSort (fun a b : Int => a ≤ b) (segN arr (l + (u : Int) * 5) 5)).getD 2 0) ∧
    (n % 5 ≠ 0 → (grouped arr l n).2.1 ((n / 5 : Nat) : Int) =
      (List.insertionSort (fun a b : Int => a ≤ b)
        (segN arr (l + ((n / 5 : Nat) : Int) * 5) (n % 5))).getD ((n % 5) / 2) 0) := by
  obtain ⟨arrF, medF, hgr⟩ : ∃ a m, gruposDe5 arr (fun _ => 0) l 0 (n / 5) = (a, m) :=
    ⟨_, _, rfl⟩
  obtain ⟨g1, g2, g3, g4⟩ := gruposDe5_spec l (n / 5) arr (fun _ => 0) 0 arrF medF hgr
  have hfive : (n / 5) * 5 ≤ n := by omega
  have hmemFull : ∀ u : Nat, u < n / 5 → medF u ∈ segN arr l n := by
    intro u hu
    have hv := g4 u (by omega) (by omega)
    have hlen : (List.insertionSort (fun a b : Int => a ≤ b)
        (segN arr (l + (u : Int) * 5) 5)).length = 5 := by
      rw [List.length_insertionSort, length_segN]
    have hmem : medF u ∈ List.insertionSort (fun a b : Int => a ≤ b)
        (segN arr (l + (u : Int) * 5) 5) := by
      rw [hv, List.getD_eq_getElem?_getD, List.getElem?_eq_getElem (by omega)]
      rw [Option.getD_some]
      exact List.getElem_mem _
    have hmem2 : medF u ∈ segN arr (l + (u : Int) * 5) 5 :=
      (List.perm_insertionSort _ _).mem_iff.mp hmem
    have : (l + (u : Int) * 5) = l + ((u * 5 : Nat) : Int) := by push_cast; ring
    rw [this] at hmem2
    exact mem_segN_of_sub (by omega) hmem2
  by_cases hc : (n / 5) * 5 < n
  · have hres : grouped arr l n =
        (insertionSort arrF (l + ((n / 5 : Nat) : Int) * 5) (n % 5),
          upd medF ((n / 5 : Nat) : Int)
            (insertionSort arrF (l + ((n / 5 : Nat) : Int) * 5) (n % 5)
              (l + ((n / 5 : Nat) : Int) * 5 + ((n % 5 : Nat) : Int) / 2)),
          n / 5 + 1) := by
      rw [grouped]
      simp only [hgr, if_pos hc]
    obtain ⟨p1, p2, p3⟩ := insertionSort_spec arrF (l + ((n / 5 : Nat) : Int) * 5) (n % 5)
    set arrG := insertionSort arrF (l + ((n / 5 : Nat) : Int) * 5) (n % 5) with harrG
    have hframeF : ∀ t : Int, (t < l ∨ l + ((n / 5 : Nat) : Int) * 5 ≤ t) → arrF t = arr t := by
      intro t ht
      exact g1 t (by push_cast at ht ⊢; omega)
    have hframeG : ∀ t : Int, (t < l ∨ l + (n : Int) ≤ t) → arrG t = arr t := by
      intro t ht
      rw [p3 t (by push_cast at ht ⊢; omega)]
      exact hframeF t (by push_cast at ht ⊢; omega)
    have hpermG : (segN arrG l n).Perm (segN arr l n) := by
      have hsplit : n = (n / 5) * 5 + n % 5 := by omega
      rw [hsplit, segN_add arrG l ((n / 5) * 5) (n % 5), segN_add arr l ((n / 5) * 5) (n % 5)]
      have e1 : segN arrG l ((n / 5) * 5) = segN arrF l ((n / 5) * 5) :=
        segN_congr fun t ht => p3 _ (by push_cast; omega)
      have e2 : segN arrF (l + (((n / 5) * 5 : Nat) : Int)) (n % 5) =
          segN arr (l + (((n / 5) * 5 : Nat) : Int)) (n % 5) :=
        segN_congr fun t ht => hframeF _ (by push_cast; omega)
      have e3 : (l + (((n / 5) * 5 : Nat) : Int)) = l + ((n / 5 : Nat) : Int) * 5 := by
        push_cast; ring
      rw [e1, ← e2]
      have g2' := g2
      have e4 : (l + ((0 : Nat) : Int) * 5) = l := by push_cast; ring
      rw [e4] at g2'
      refine List.Perm.append g2' ?_
      rw [e3]
      exact p2
    rw [hres]
    dsimp only
    refine ⟨by omega, hframeG, hpermG, ?_, ?_, ?_⟩
    · intro u hu
      by_cases hun : u = n / 5
      · subst hun
        rw [upd_self]
        have hw : arrG (l + ((n / 5 : Nat) : Int) * 5 + ((n % 5 : Nat) : Int) / 2) ∈
            segN arrG l n := by
          rw [mem_segN_iff]
          refine ⟨(n / 5) * 5 + (n % 5) / 2, by omega, ?_⟩
          congr 1
          omega
        exact hpermG.mem_iff.mp hw
      · rw [upd_other _ _ (by push_cast; omega)]
        exact hmemFull u (by omega)
    · intro u hu
      rw [upd_other _ _ (by push_cast; omega)]
      exact g4 u (by omega) (by omega)
    · intro hmod
      rw [upd_self]
      have e5 : segN arrG (l + ((n / 5 : Nat) : Int) * 5) (n % 5) =
          List.insertionSort (fun a b : Int => a ≤ b)
            (segN arrF (l + ((n / 5 : Nat) : Int) * 5) (n % 5)) :=
        insertionSort_eq_sort arrF _ _
      have e6 : segN arrF (l + ((n / 5 : Nat) : Int) * 5) (n % 5) =
          segN arr (l + ((n / 5 : Nat) : Int) * 5) (n % 5) :=
        segN_congr fun t ht => hframeF _ (by push_cast; omega)
      rw [← e6, ← e5, getD_segN arrG _ (by omega : (n % 5) / 2 < n % 5)]
      congr 1
  · have hres : grouped arr l n = (arrF, medF, n / 5) := by
      rw [grouped]
      simp only [hgr, if_neg hc]
    have hmod : n % 5 = 0 := by omega
    rw [hres]
    dsimp only
    have e4 : (l + ((0 : Nat) : Int) * 5) = l := by push_cast; ring
    have hn5 : (n / 5) * 5 = n := by omega
    refine ⟨by omega, ?_, ?_, ?_, ?_, fun h => absurd hmod h⟩
    · intro t ht
      exact g1 t (by push_cast at ht ⊢; omega)
    · have g2' := g2
      rw [e4, hn5] at g2'
      exact g2'
    · intro u hu
      exact hmemFull u hu
    · intro u hu
      exact g4 u (by omega) (by omega)

/-! ### Specification-side lemmas about the k-th smallest value -/

theorem kthSmallest_perm {xs ys : List Int} (h : xs.Perm ys) (k : Int) :
    kthSmallest xs k = kthSmallest ys k := by
  unfold kthSmallest
  congr 1
  refine List.eq_of_perm_of_sorted ?_ (List.sorted_insertionSort _ _)
    (List.sorted_insertionSort _ _)
  exact (List.perm_insertionSort _ _).trans (h.trans (List.perm_insertionSort _ _).symm)

theorem kthSmallest_mem {xs : List Int} {k : Int} (h1 : 1 ≤ k) (h2 : k ≤ xs.length) :
    kthSmallest xs k ∈ xs := by
  unfold kthSmallest
  have hlen : (List.insertionSort (fun a b : Int => a ≤ b) xs).length = xs.length :=
    List.length_insertionSort _ _
  have hidx : (k - 1).toNat < (List.insertionSort (fun a b : Int => a ≤ b) xs).length := by
    rw [hlen]; omega
  rw [List.getD_eq_getElem?_getD, List.getElem?_eq_getElem hidx, Option.getD_some]
  exact (List.perm_insertionSort _ _).mem_iff.mp (List.getElem_mem _)

theorem getD_app_left {A B : List Int} {t : Nat} (h : t < A.length) :
    (A ++ B).getD t 0 = A.getD t 0 := by
  rw [List.getD_eq_getElem?_getD, List.getD_eq_getElem?_getD, List.getElem?_append_left h]

theorem getD_app_right {A B : List Int} {t : Nat} (h : A.length ≤ t) :
    (A ++ B).getD t 0 = B.getD (t - A.length) 0 := by
  rw [List.getD_eq_getElem?_getD, List.getD_eq_getElem?_getD, List.getElem?_append_right h]

/-- Sorting a partitioned list: when every element of `A` is at most `p` and
every element of `B` exceeds `p`, the ascending sort splits into the sort of
`A`, then `p`, then the sort of `B`. -/
theorem sort_append_split {A B : List Int} {p : Int}
    (hA : ∀ a ∈ A, a ≤ p) (hB : ∀ b ∈ B, p < b) :
    List.insertionSort (fun a b : Int => a ≤ b) (A ++ p :: B) =
      List.insertionSort (fun a b : Int => a ≤ b) A ++
        p :: List.insertionSort (fun a b : Int => a ≤ b) B := by
  have hmemA : ∀ a ∈ List.insertionSort (fun a b : Int => a ≤ b) A, a ≤ p := fun a ha =>
    hA a ((List.perm_insertionSort _ _).mem_iff.mp ha)
  have hmemB : ∀ b ∈ List.insertionSort (fun a b : Int => a ≤ b) B, p < b := fun b hb =>
    hB b ((List.perm_insertionSort _ _).mem_iff.mp hb)
  refine List.eq_of_perm_of_sorted ?_ (List.sorted_insertionSort _ _) ?_
  · refine (List.perm_insertionSort _ _).trans ?_
    refine List.Perm.append (List.perm_insertionSort _ _).symm ?_
    exact List.Perm.cons p (List.perm_insertionSort _ _).symm
  · rw [List.Sorted, List.pairwise_append]
    refine ⟨List.sorted_insertionSort _ _, ?_, ?_⟩
    · rw [List.pairwise_cons]
      exact ⟨fun b hb => le_of_lt (hmemB b hb), List.sorted_insertionSort _ _⟩
    · intro a ha b hb
      rcases List.mem_cons.mp hb with rfl | hb'
      · exact hmemA a ha
      · exact le_trans (hmemA a ha) (le_of_lt (hmemB b hb'))

/-! ### Unfolding the selection recursion through the pivot computation -/

/-- One step of `kesimoMinimo` with a valid rank, written through
`pivotFuel`: compute the pivot (possibly recursively), partition, then either
return the pivot or recurse into exactly one side. -/
theorem kesimoFuel_succ (fuel : Nat) (arr : Mem) (l r k : Int)
    (hk : k > 0 ∧ k ≤ r - l + 1) :
    kesimoFuel (fuel + 1) arr l r k =
      (match pivotFuel fuel arr l r with
        | none => none
        | some (arr2, medOfMed) =>
          if (particionar arr2 l r medOfMed).2 - l = k - 1 then
            some ((particionar arr2 l r medOfMed).1,
              (particionar arr2 l r medOfMed).1 (particionar arr2 l r medOfMed).2)
          else if (particionar arr2 l r medOfMed).2 - l > k - 1 then
            kesimoFuel fuel (particionar arr2 l r medOfMed).1 l
              ((particionar arr2 l r medOfMed).2 - 1) k
          else
            kesimoFuel fuel (particionar arr2 l r medOfMed).1
              ((particionar arr2 l r medOfMed).2 + 1) r
              (k - ((particionar arr2 l r medOfMed).2 - l) - 1)) := by
  rw [kesimoFuel, if_pos hk, pivotFuel]
  by_cases hg : (grouped arr l (r - l + 1).toNat).2.2 = 1
  · simp only [if_pos hg]
  · simp only [if_neg hg]
    cases hrec : kesimoFuel fuel (grouped arr l (r - l + 1).toNat).2.1 0
        (((grouped arr l (r - l + 1).toNat).2.2 : Int) - 1)
        ((((grouped arr l (r - l + 1).toNat).2.2 : Int) + 1) / 2) with
    | none => rfl
    | some q => rfl

/-- The full contract of the selection recursion at a given fuel: for every
valid rank over a window that fits in the fuel, the call succeeds, returns the
k-th smallest value of the window, permutes the window and touches nothing
outside it. -/
def SelSpec (fuel : Nat) : Prop :=
  ∀ (arr : Mem) (l r k : Int), 1 ≤ k → k ≤ r - l + 1 → (r - l + 1).toNat ≤ fuel →
    ∃ arrO : Mem, kesimoFuel fuel arr l r k =
        some (arrO, kthSmallest (segN arr l (r - l + 1).toNat) k) ∧
      (segN arrO l (r - l + 1).toNat).Perm (segN arr l (r - l + 1).toNat) ∧
      (∀ t : Int, (t < l ∨ r < t) → arrO t = arr t)

/-- The pivot computation of a call on a nonempty window: it returns the
array produced by the grouping phase, and a pivot value that occurs in the
window, provided the recursion below it satisfies its contract. -/
theorem pivotAux (fuel : Nat) (IH : SelSpec fuel) (arr : Mem) (l r : Int)
    (hn : 1 ≤ r - l + 1) (hfuel : (r - l + 1).toNat ≤ fuel + 1) :
    ∃ pv, pivotFuel fuel arr l r = some ((grouped arr l (r - l + 1).toNat).1, pv) ∧
      pv ∈ segN arr l (r - l + 1).toNat := by
  set n := (r - l + 1).toNat with hn'
  have hn1 : 1 ≤ n := by omega
  obtain ⟨hgG, hgFrame, hgPerm, hgMem, _, _⟩ := grouped_spec arr l n
  rw [pivotFuel]
  by_cases hgone : (grouped arr l n).2.2 = 1
  · simp only [← hn', if_pos hgone]
    refine ⟨(grouped arr l n).2.1 0, rfl, ?_⟩
    have := hgMem 0 (by omega)
    simpa using this
  · simp only [← hn', if_neg hgone]
    have hg2 : 2 ≤ (grouped arr l n).2.2 := by omega
    have hn6 : 6 ≤ n := by omega
    set g := (grouped arr l n).2.2 with hg'
    have hwin : ((g : Int) - 1 - 0 + 1) = (g : Int) := by ring
    obtain ⟨medO, hmrec, _, _⟩ := IH (grouped arr l n).2.1 0 ((g : Int) - 1)
      (((g : Int) + 1) / 2) (by omega) (by omega) (by rw [hwin]; omega)
    rw [hwin] at hmrec
    have hgt : ((g : Int)).toNat = g := by omega
    rw [hgt] at hmrec
    rw [hmrec]
    refine ⟨_, rfl, ?_⟩
    have hmem : kthSmallest (segN (grouped arr l n).2.1 0 g) (((g : Int) + 1) / 2) ∈
        segN (grouped arr l n).2.1 0 g := by
      refine kthSmallest_mem (by omega) ?_
      rw [length_segN]
      omega
    obtain ⟨u, hu, hval⟩ := mem_segN_iff.mp hmem
    rw [← hval]
    have : ((0 : Int) + (u : Int)) = (u : Int) := by ring
    rw [this]
    exact hgMem u hu

/-- Master theorem: the selection recursion meets its contract at every fuel
(in particular at fuel equal to the window length). -/
theorem kesimoFuel_master : ∀ fuel : Nat, SelSpec fuel := by
  intro fuel
  induction fuel with
  | zero =>
    intro arr l r k hk1 hk2 hfuel
    exact absurd hfuel (by omega)
  | succ fuel ih =>
    intro arr l r k hk1 hk2 hfuel
    set n := (r - l + 1).toNat with hn'
    have hn1 : 1 ≤ n := by omega
    have hrl : l ≤ r := by omega
    have hcast : (n : Int) = r - l + 1 := by omega
    obtain ⟨hgG, hgFrame, hgPerm, hgMem, _, _⟩ := grouped_spec arr l n
    obtain ⟨pv, hpiv, hpvmem⟩ := pivotAux fuel ih arr l r (by omega) (by omega)
    rw [← hn'] at hpiv
    set arrG := (grouped arr l n).1 with harrG
    have hwineq : (r + 1 - l).toNat = n := by omega
    have hpvG : pv ∈ segN arrG l (r + 1 - l).toNat := by
      rw [hwineq]
      exact hgPerm.mem_iff.mpr hpvmem
    obtain ⟨pc1, pc2, pc3, pc4, pc5, pc6, pc7⟩ := particionar_spec hpvG
    set arr3 := (particionar arrG l r pv).1 with harr3
    set pos := (particionar arrG l r pv).2 with hpos
    rw [hwineq] at pc6
    -- window decomposition of the partitioned array
    have hsplit3 : segN arr3 l n =
        segN arr3 l (pos - l).toNat ++
          arr3 pos :: segN arr3 (pos + 1) (r - pos).toNat := by
      rw [← hwineq]
      exact segN_split pc1 pc2
    set L := segN arr3 l (pos - l).toNat with hL
    set R := segN arr3 (pos + 1) (r - pos).toNat with hR
    have hLA : ∀ a ∈ L, a ≤ pv := by
      intro a ha
      obtain ⟨t, ht, rfl⟩ := mem_segN_iff.mp ha
      exact pc4 _ (by omega) (by omega)
    have hRB : ∀ b ∈ R, pv < b := by
      intro b hb
      obtain ⟨t, ht, rfl⟩ := mem_segN_iff.mp hb
      exact pc5 _ (by omega) (by omega)
    have hperm3 : (segN arr3 l n).Perm (segN arr l n) := pc6.trans hgPerm
    have hframe3 : ∀ t : Int, (t < l ∨ r < t) → arr3 t = arr t := by
      intro t ht
      rw [pc7 t ht]
      exact hgFrame t (by rcases ht with h | h; exact Or.inl h; right; omega)
    -- the k-th smallest of the original window, through the decomposition
    have hLlen : L.length = (pos - l).toNat := length_segN _ _ _
    have hsortLlen : (List.insertionSort (fun a b : Int => a ≤ b) L).length =
        (pos - l).toNat := by rw [List.length_insertionSort, hLlen]
    have hkth : kthSmallest (segN arr l n) k =
        (List.insertionSort (fun a b : Int => a ≤ b) L ++
          pv :: List.insertionSort (fun a b : Int => a ≤ b) R).getD (k - 1).toNat 0 := by
      rw [← kthSmallest_perm hperm3 k, hsplit3, pc3]
      unfold kthSmallest
      rw [sort_append_split hLA hRB]
    -- unfold one step of the recursion
    rw [kesimoFuel_succ fuel arr l r k ⟨by omega, hk2⟩]
    rw [hpiv]
    simp only [← harrG, ← harr3, ← hpos]
    rcases lt_trichotomy (pos - l) (k - 1) with hcase | hcase | hcase
    · -- the answer lies strictly right of the pivot
      rw [if_neg (by omega), if_neg (by omega)]
      have hval2 : 1 ≤ k - (pos - l) - 1 := by omega
      have hval3 : k - (pos - l) - 1 ≤ r - (pos + 1) + 1 := by omega
      obtain ⟨arrO, hrec, hpermIH, hframeIH⟩ := ih arr3 (pos + 1) r (k - (pos - l) - 1)
        hval2 hval3 (by omega)
      have hwr : (r - (pos + 1) + 1) = r - pos := by ring
      rw [hwr] at hrec hpermIH
      refine ⟨arrO, ?_, ?_, ?_⟩
      · rw [hrec]
        congr 2
        rw [hkth]
        rw [getD_app_right (by omega)]
        rw [hsortLlen]
        have hidx : (k - 1).toNat - (pos - l).toNat = ((k - (pos - l) - 1 - 1).toNat) + 1 := by
          omega
        rw [hidx, List.getD_cons_succ]
        rfl
      · have hsplitO : segN arrO l n =
            segN arrO l (pos - l).toNat ++
              arrO pos :: segN arrO (pos + 1) (r - pos).toNat := by
          rw [← hwineq]
          exact segN_split (by omega) (by omega)
        have hOL : segN arrO l (pos - l).toNat = L :=
          segN_congr fun t ht => hframeIH _ (by omega)
        have hOpos : arrO pos = arr3 pos := hframeIH _ (by omega)
        rw [hsplitO, hOL, hOpos]
        refine (List.Perm.append (List.Perm.refl L) (List.Perm.cons _ hpermIH)).trans ?_
        rw [← hsplit3]
        exact hperm3
      · intro t ht
        rw [hframeIH t (by omega)]
        exact hframe3 t ht
    · -- the pivot is exactly the k-th smallest
      rw [if_pos (by omega)]
      refine ⟨arr3, ?_, hperm3, hframe3⟩
      congr 2
      rw [hkth, getD_app_right (by omega), hsortLlen]
      have hidx : (k - 1).toNat - (pos - l).toNat = 0 := by omega
      rw [hidx, List.getD_cons_zero, pc3]
    · -- the answer lies strictly left of the pivot
      rw [if_neg (by omega), if_pos (by omega)]
      obtain ⟨arrO, hrec, hpermIH, hframeIH⟩ := ih arr3 l (pos - 1) k
        hk1 (by omega) (by omega)
      have hwl : (pos - 1 - l + 1) = pos - l := by ring
      rw [hwl] at hrec hpermIH
      refine ⟨arrO, ?_, ?_, ?_⟩
      · rw [hrec]
        congr 2
        rw [hkth, getD_app_left (by omega)]
        rfl
      · have hsplitO : segN arrO l n =
            segN arrO l (pos - l).toNat ++
              arrO pos :: segN arrO (pos + 1) (r - pos).toNat := by
          rw [← hwineq]
          exact segN_split (by omega) (by omega)
        have hOR : segN arrO (pos + 1) (r - pos).toNat = R :=
          segN_congr fun t ht => hframeIH _ (by omega)
        have hOpos : arrO pos = arr3 pos := hframeIH _ (by omega)
        rw [hsplitO, hOR, hOpos]
        refine (List.Perm.append hpermIH (List.Perm.refl _)).trans ?_
        rw [← hsplit3]
        exact hperm3
      · intro t ht
        rw [hframeIH t (by omega)]
        exact hframe3 t ht

/-- Behaviour of `kesimoMinimo` on a valid rank: it returns the k-th smallest
value of the window, permutes the window, and leaves everything else. -/
theorem kesimoMinimo_valid {arr : Mem} {l r k : Int} (h1 : 1 ≤ k) (h2 : k ≤ r - l + 1) :
    (kesimoMinimo arr l r k).2 = kthSmallest (segN arr l (r - l + 1).toNat) k ∧
    (segN (kesimoMinimo arr l r k).1 l (r - l + 1).toNat).Perm
      (segN arr l (r - l + 1).toNat) ∧
    (∀ t : Int, (t < l ∨ r < t) → (kesimoMinimo arr l r k).1 t = arr t) := by
  have hfe : (r + 1 - l).toNat = (r - l + 1).toNat := by omega
  obtain ⟨arrO, hval, hperm, hframe⟩ :=
    kesimoFuel_master (r - l + 1).toNat arr l r k h1 h2 (le_refl _)
  have : kesimoMinimo arr l r k = (arrO, kthSmallest (segN arr l (r - l + 1).toNat) k) := by
    rw [kesimoMinimo, hfe, hval]
    rfl
  rw [this]
  exact ⟨rfl, hperm, hframe⟩

/-- Behaviour of `kesimoMinimo` on an invalid rank: the array is untouched and
the sentinel `INT_MAX = 2147483647` is returned. -/
theorem kesimoMinimo_invalid {arr : Mem} {l r k : Int} (h : k < 1 ∨ r - l + 1 < k) :
    kesimoMinimo arr l r k = (arr, 2147483647) := by
  rw [kesimoMinimo]
  rcases hn : (r + 1 - l).toNat with _ | m
  · rfl
  · rw [kesimoFuel, if_neg (by omega)]
    rfl

/-- The pivot value actually chosen by a call on a nonempty window: the single
median when there is one group, and otherwise the result of the recursive
selection on the medians buffer `[0, g - 1]` at rank `(g + 1) / 2`, which by
the master theorem is its `(g + 1) / 2`-th smallest value. -/
theorem pivotFuel_val (fuel : Nat) (arr : Mem) (l r : Int)
    (hn : 1 ≤ r - l + 1) (hfuel : (r - l + 1).toNat ≤ fuel + 1) :
    pivotFuel fuel arr l r = some ((grouped arr l (r - l + 1).toNat).1,
      if (grouped arr l (r - l + 1).toNat).2.2 = 1 then
        (grouped arr l (r - l + 1).toNat).2.1 0
      else
        kthSmallest
          (segN (grouped arr l (r - l + 1).toNat).2.1 0 (grouped arr l (r - l + 1).toNat).2.2)
          (((grouped arr l (r - l + 1).toNat).2.2 + 1) / 2)) := by
  set n := (r - l + 1).toNat with hn'
  have hn1 : 1 ≤ n := by omega
  obtain ⟨hgG, _, _, _, _, _⟩ := grouped_spec arr l n
  rw [pivotFuel]
  by_cases hgone : (grouped arr l n).2.2 = 1
  · simp only [← hn', if_pos hgone]
  · simp only [← hn', if_neg hgone]
    have hg2 : 2 ≤ (grouped arr l n).2.2 := by omega
    have hn6 : 6 ≤ n := by omega
    set g := (grouped arr l n).2.2 with hg'
    have hwin : ((g : Int) - 1 - 0 + 1) = (g : Int) := by ring
    obtain ⟨medO, hmrec, _, _⟩ := kesimoFuel_master fuel (grouped arr l n).2.1 0
      ((g : Int) - 1) (((g : Int) + 1) / 2) (by omega) (by omega) (by rw [hwin]; omega)
    rw [hwin] at hmrec
    have hgt : ((g : Int)).toNat = g := by omega
    rw [hgt] at hmrec
    rw [hmrec]

/-! ### Correctness of the Strassen recursion -/

theorem strassen_eq_step {n : Nat} (h : 2 ≤ n) (A B : Mat) :
    strassen n A B = strassenStep (n / 2) (strassen (n / 2)) A B := by
  rw [strassen]
  rw [if_neg (by omega), if_neg (by omega)]

theorem sum_range_double (m : Nat) (f : Nat → Int) :
    ∑ t ∈ Finset.range (m + m), f t =
      (∑ t ∈ Finset.range m, f t) + ∑ t ∈ Finset.range m, f (t + m) := by
  rw [Finset.sum_range_add]
  congr 1
  exact Finset.sum_congr rfl fun t _ => by rw [Nat.add_comm]

/-- One level of the seven-product recombination computes the block product:
if the recursive calls multiply `m`-sized matrices correctly, the step
multiplies `2m`-sized matrices correctly. -/
theorem strassenStep_correct (m : Nat) (recur : Mat → Mat → Mat)
    (hrec : ∀ (X Y : Mat) (i j : Nat), i < m → j < m → recur X Y i j = matMul m X Y i j)
    (A B : Mat) (i j : Nat) (hi : i < m + m) (hj : j < m + m) :
    strassenStep m recur A B i j = matMul (m + m) A B i j := by
  have hP : ∀ (X Y : Mat) (a b : Nat), a < m → b < m →
      recur X Y a b = ∑ t ∈ Finset.range m, X a t * Y t b := by
    intro X Y a b ha hb
    rw [hrec X Y a b ha hb]
    rfl
  rw [matMul, sum_range_double]
  by_cases hi' : i < m <;> by_cases hj' : j < m
  · simp only [strassenStep, if_pos hi', if_pos hj', somarMatrizes, subtrairMatrizes]
    rw [hP _ _ _ _ hi' hj', hP _ _ _ _ hi' hj', hP _ _ _ _ hi' hj', hP _ _ _ _ hi' hj']
    simp only [somarMatrizes, subtrairMatrizes]
    rw [← Finset.sum_add_distrib, ← Finset.sum_sub_distrib, ← Finset.sum_add_distrib,
      ← Finset.sum_add_distrib]
    exact Finset.sum_congr rfl fun t _ => by ring
  · simp only [strassenStep, if_pos hi', if_neg hj', somarMatrizes, subtrairMatrizes]
    have hjm : j - m < m := by omega
    have hje : j - m + m = j := by omega
    rw [hP _ _ _ _ hi' hjm, hP _ _ _ _ hi' hjm]
    simp only [somarMatrizes, subtrairMatrizes, hje]
    rw [← Finset.sum_add_distrib, ← Finset.sum_add_distrib]
    exact Finset.sum_congr rfl fun t _ => by ring
  · simp only [strassenStep, if_neg hi', if_pos hj', somarMatrizes, subtrairMatrizes]
    have him : i - m < m := by omega
    have hie : i - m + m = i := by omega
    rw [hP _ _ _ _ him hj', hP _ _ _ _ him hj']
    simp only [somarMatrizes, subtrairMatrizes, hie]
    rw [← Finset.sum_add_distrib, ← Finset.sum_add_distrib]
    exact Finset.sum_congr rfl fun t _ => by ring
  · simp only [strassenStep, if_neg hi', if_neg hj', somarMatrizes, subtrairMatrizes]
    have him : i - m < m := by omega
    have hjm : j - m < m := by omega
    have hie : i - m + m = i := by omega
    have hje : j - m + m = j := by omega
    rw [hP _ _ _ _ him hjm, hP _ _ _ _ him hjm, hP _ _ _ _ him hjm, hP _ _ _ _ him hjm]
    simp only [somarMatrizes, subtrairMatrizes, hie, hje]
    rw [← Finset.sum_add_distrib, ← Finset.sum_sub_distrib, ← Finset.sum_sub_distrib,
      ← Finset.sum_add_distrib]
    exact Finset.sum_congr rfl fun t _ => by ring

/-- The Strassen routine computes the standard matrix product on every
power-of-two dimension. -/
theorem strassen_pow2 : ∀ (s : Nat) (A B : Mat) (i j : Nat), i < 2 ^ s → j < 2 ^ s →
    strassen (2 ^ s) A B i j = matMul (2 ^ s) A B i j := by
  intro s
  induction s with
  | zero =>
    intro A B i j hi hj
    interval_cases i
    interval_cases j
    rw [strassen]
    norm_num [matMul]
  | succ s ih =>
    intro A B i j hi hj
    have h2 : 2 ^ (s + 1) = 2 ^ s + 2 ^ s := by rw [pow_succ]; omega
    have hdiv : 2 ^ (s + 1) / 2 = 2 ^ s := by omega
    rw [strassen_eq_step (by have h1 : 1 ≤ 2 ^ s := Nat.one_le_two_pow; omega) A B, hdiv, h2]
    exact strassenStep_correct (2 ^ s) (strassen (2 ^ s))
      (fun X Y a b ha hb => ih X Y a b ha hb) A B i j (by omega) (by omega)

/-! ### The claims -/

/-- C1: for every finite non-empty integer window and every rank `k` with
`1 ≤ k ≤` window length, `select_kth` (`kesimoMinimo` on the range `[l, r]`,
in particular on a full range `[0, size - 1]`) returns the k-th smallest
value of the window's multiset, i.e. the value at 0-based position `k - 1` of
its contents sorted ascending. -/
theorem select_kth_correct (arr : Mem) (l r k : Int) (h1 : 1 ≤ k) (h2 : k ≤ r - l + 1) :
    (kesimoMinimo arr l r k).2 = kthSmallest (segN arr l (r - l + 1).toNat) k :=
  (kesimoMinimo_valid h1 h2).1

theorem select_kth_correct_witness :
    (1 : Int) ≤ 5 ∧ (5 : Int) ≤ 9 - 0 + 1 ∧
      (kesimoMinimo (fun t : Int => [25, 21, 98, 100, 76, 22, 43, 60, 89, 42].getD t.toNat 0)
          0 9 5).2 =
        kthSmallest (segN (fun t : Int => [25, 21, 98, 100, 76, 22, 43, 60, 89, 42].getD
          t.toNat 0) 0 ((9 : Int) - 0 + 1).toNat) 5 :=
  ⟨by decide, by decide,
    select_kth_correct (fun t : Int => [25, 21, 98, 100, 76, 22, 43, 60, 89, 42].getD
      t.toNat 0) 0 9 5 (by decide) (by decide)⟩

/-- C2: for every window, SmallSort (`insertionSort`) and ValuePartition
(`particionar`, under its contract that the pivot occurs in the window) —
and consequently SelectKth (`kesimoMinimo`) with a valid rank — leave the
multiset of values stored in the window unchanged: elements are only
reordered, never added, removed or altered. -/
theorem multiset_preserved (arr arrP arrS : Mem) (base : Int) (n : Nat) (l r pivo k : Int) :
    (segN (insertionSort arr base n) base n).Perm (segN arr base n) ∧
    (pivo ∈ segN arrP l (r + 1 - l).toNat →
      (segN (particionar arrP l r pivo).1 l (r + 1 - l).toNat).Perm
        (segN arrP l (r + 1 - l).toNat)) ∧
    (1 ≤ k → k ≤ r - l + 1 →
      (segN (kesimoMinimo arrS l r k).1 l (r - l + 1).toNat).Perm
        (segN arrS l (r - l + 1).toNat)) := by
  refine ⟨(insertionSort_spec arr base n).2.1, ?_, ?_⟩
  · intro hmem
    exact (particionar_spec hmem).2.2.2.2.2.1
  · intro h1 h2
    exact (kesimoMinimo_valid h1 h2).2.1

theorem multiset_preserved_witness :
    ((43 : Int) ∈ segN (fun t : Int => [25, 21, 98, 100, 76, 22, 43, 60, 89, 42].getD
        t.toNat 0) 0 ((9 : Int) + 1 - 0).toNat) ∧
    (segN (insertionSort (fun t : Int => [25, 21, 98, 100, 76, 22, 43, 60, 89, 42].getD
        t.toNat 0) 0 10) 0 10).Perm
      (segN (fun t : Int => [25, 21, 98, 100, 76, 22, 43, 60, 89, 42].getD t.toNat 0) 0 10) ∧
    (segN (particionar (fun t : Int => [25, 21, 98, 100, 76, 22, 43, 60, 89, 42].getD
        t.toNat 0) 0 9 43).1 0 ((9 : Int) + 1 - 0).toNat).Perm
      (segN (fun t : Int => [25, 21, 98, 100, 76, 22, 43, 60, 89, 42].getD t.toNat 0)
        0 ((9 : Int) + 1 - 0).toNat) ∧
    (segN (kesimoMinimo (fun t : Int => [25, 21, 98, 100, 76, 22, 43, 60, 89, 42].getD
        t.toNat 0) 0 9 5).1 0 ((9 : Int) - 0 + 1).toNat).Perm
      (segN (fun t : Int => [25, 21, 98, 100, 76, 22, 43, 60, 89, 42].getD t.toNat 0)
        0 ((9 : Int) - 0 + 1).toNat) := by
  have h := multiset_preserved
    (fun t : Int => [25, 21, 98, 100, 76, 22, 43, 60, 89, 42].getD t.toNat 0)
    (fun t : Int => [25, 21, 98, 100, 76, 22, 43, 60, 89, 42].getD t.toNat 0)
    (fun t : Int => [25, 21, 98, 100, 76, 22, 43, 60, 89, 42].getD t.toNat 0)
    0 10 0 9 43 5
  exact ⟨by decide, h.1, h.2.1 (by decide), h.2.2 (by decide) (by decide)⟩

/-- C3 counterexample: the claim that the invalid-rank condition is reported
as a result never conflated with a valid data value is false for this code:
on the one-element array holding `INT_MAX = 2147483647`, the valid call with
rank 1 returns 2147483647 (a legitimate data value) and the invalid call with
rank 2 returns the very same 2147483647 (the in-band sentinel), so the two
outcomes are indistinguishable. -/
theorem invalid_rank_conflation :
    (kesimoMinimo (fun _ : Int => 2147483647) 0 0 1).2 = 2147483647 ∧
    (kesimoMinimo (fun _ : Int => 2147483647) 0 0 2).2 = 2147483647 := by
  constructor <;> decide

/-- C3 amended: for every rank `k` with `k < 1` or `k >` window length
(including every call on an empty window), `kesimoMinimo` reports the
invalid-rank condition by returning the in-band sentinel value
`INT_MAX = 2147483647` with the array unchanged; this sentinel is a possible
legitimate element value, so the failure is distinguishable only by
convention, not by type. -/
theorem invalid_rank_returns_sentinel (arr : Mem) (l r k : Int)
    (h : k < 1 ∨ r - l + 1 < k) :
    kesimoMinimo arr l r k = (arr, 2147483647) :=
  kesimoMinimo_invalid h

theorem invalid_rank_returns_sentinel_witness :
    ((0 : Int) < 1 ∨ (0 : Int) - 0 + 1 < 0) ∧
      kesimoMinimo (fun _ : Int => 7) 0 0 0 = ((fun _ : Int => 7), 2147483647) :=
  ⟨by decide, invalid_rank_returns_sentinel (fun _ : Int => 7) 0 0 0 (by decide)⟩

/-- C4: for every window `[l, r]` and every pivot value occurring in it,
ValuePartition (`particionar`) rearranges the window and returns an index `p`
in `[l, r]` such that afterwards every window element at an index `< p` is at
most the pivot, every window element at an index `> p` exceeds the pivot, and
the element at index `p` equals the pivot. -/
theorem particionar_partitions (arr : Mem) (l r pivo : Int)
    (hmem : pivo ∈ segN arr l (r + 1 - l).toNat) :
    l ≤ (particionar arr l r pivo).2 ∧ (particionar arr l r pivo).2 ≤ r ∧
    (∀ t : Int, l ≤ t → t < (particionar arr l r pivo).2 →
      (particionar arr l r pivo).1 t ≤ pivo) ∧
    (∀ t : Int, (particionar arr l r pivo).2 < t → t ≤ r →
      pivo < (particionar arr l r pivo).1 t) ∧
    (particionar arr l r pivo).1 (particionar arr l r pivo).2 = pivo := by
  obtain ⟨a, b, c, d, e, _, _⟩ := particionar_spec hmem
  exact ⟨a, b, d, e, c⟩

theorem particionar_partitions_witness :
    ((43 : Int) ∈ segN (fun t : Int => [25, 21, 98, 100, 76, 22, 43, 60, 89, 42].getD
        t.toNat 0) 0 ((9 : Int) + 1 - 0).toNat) ∧
    ((0 : Int) ≤ (particionar (fun t : Int => [25, 21, 98, 100, 76, 22, 43, 60, 89, 42].getD
        t.toNat 0) 0 9 43).2 ∧
      (particionar (fun t : Int => [25, 21, 98, 100, 76, 22, 43, 60, 89, 42].getD
        t.toNat 0) 0 9 43).2 ≤ 9 ∧
      (∀ t : Int, 0 ≤ t → t < (particionar (fun t : Int =>
          [25, 21, 98, 100, 76, 22, 43, 60, 89, 42].getD t.toNat 0) 0 9 43).2 →
        (particionar (fun t : Int => [25, 21, 98, 100, 76, 22, 43, 60, 89, 42].getD
          t.toNat 0) 0 9 43).1 t ≤ 43) ∧
      (∀ t : Int, (particionar (fun t : Int =>
          [25, 21, 98, 100, 76, 22, 43, 60, 89, 42].getD t.toNat 0) 0 9 43).2 < t → t ≤ 9 →
        43 < (particionar (fun t : Int => [25, 21, 98, 100, 76, 22, 43, 60, 89, 42].getD
          t.toNat 0) 0 9 43).1 t) ∧
      (particionar (fun t : Int => [25, 21, 98, 100, 76, 22, 43, 60, 89, 42].getD
        t.toNat 0) 0 9 43).1 (particionar (fun t : Int =>
          [25, 21, 98, 100, 76, 22, 43, 60, 89, 42].getD t.toNat 0) 0 9 43).2 = 43) :=
  ⟨by decide, particionar_partitions (fun t : Int =>
    [25, 21, 98, 100, 76, 22, 43, 60, 89, 42].getD t.toNat 0) 0 9 43 (by decide)⟩

/-- C5: every call of SelectKth with a valid rank terminates: recursion depth
equal to the window length `n = r - l + 1` always suffices, because each
non-terminal recursive call operates on a strictly smaller window — the
medians recursion on `ceil(n/5) < n` elements (it only happens when there is
more than one median, hence `n ≥ 6`), and the side recursion on `[l, pos-1]`
or `[pos+1, r]`, both strictly shorter than `[l, r]` since `pos` is excluded.
Formally: with fuel `n`, the fuel never runs out. -/
theorem selection_terminates (arr : Mem) (l r k : Int) (h1 : 1 ≤ k) (h2 : k ≤ r - l + 1) :
    (kesimoFuel (r - l + 1).toNat arr l r k).isSome := by
  obtain ⟨arrO, hval, _, _⟩ := kesimoFuel_master (r - l + 1).toNat arr l r k h1 h2 (le_refl _)
  rw [hval]
  rfl

theorem selection_terminates_witness :
    (1 : Int) ≤ 5 ∧ (5 : Int) ≤ 9 - 0 + 1 ∧
      (kesimoFuel ((9 : Int) - 0 + 1).toNat (fun t : Int =>
        [25, 21, 98, 100, 76, 22, 43, 60, 89, 42].getD t.toNat 0) 0 9 5).isSome :=
  ⟨by decide, by decide, selection_terminates (fun t : Int =>
    [25, 21, 98, 100, 76, 22, 43, 60, 89, 42].getD t.toNat 0) 0 9 5 (by decide) (by decide)⟩

/-- C6: in every call on a nonempty window of length `n`, the pivot is
computed as claimed: the grouping phase produces `g = (n + 4) / 5 = ceil(n/5)`
medians; the median of each full block of 5 is the element at offset 2 of
that block's ascending sort; the median of a trailing block of size
`s = n mod 5` (when present) is the element at offset `s / 2` of its
ascending sort; and the pivot — the value `pivotFuel` yields, which by
`kesimoFuel_succ` is exactly what the call partitions around — is that single
median when `g = 1`, and otherwise the result of the recursive selection on
the medians buffer over `[0, g - 1]` with rank `(g + 1) / 2`, i.e. the
`(g+1)/2`-th smallest of the medians. -/
theorem pivot_median_of_medians (arr : Mem) (l r : Int) (hn : 1 ≤ r - l + 1) :
    (grouped arr l (r - l + 1).toNat).2.2 = ((r - l + 1).toNat + 4) / 5 ∧
    (∀ u : Nat, u < (r - l + 1).toNat / 5 → (grouped arr l (r - l + 1).toNat).2.1 u =
      (List.insertionSort (fun a b : Int => a ≤ b)
        (segN arr (l + (u : Int) * 5) 5)).getD 2 0) ∧
    ((r - l + 1).toNat % 5 ≠ 0 →
      (grouped arr l (r - l + 1).toNat).2.1 (((r - l + 1).toNat / 5 : Nat) : Int) =
        (List.insertionSort (fun a b : Int => a ≤ b)
          (segN arr (l + (((r - l + 1).toNat / 5 : Nat) : Int) * 5)
            ((r - l + 1).toNat % 5))).getD (((r - l + 1).toNat % 5) / 2) 0) ∧
    pivotFuel ((r - l + 1).toNat - 1) arr l r =
      some ((grouped arr l (r - l + 1).toNat).1,
        if (grouped arr l (r - l + 1).toNat).2.2 = 1 then
          (grouped arr l (r - l + 1).toNat).2.1 0
        else
          kthSmallest (segN (grouped arr l (r - l + 1).toNat).2.1 0
              (grouped arr l (r - l + 1).toNat).2.2)
            (((grouped arr l (r - l + 1).toNat).2.2 + 1) / 2)) := by
  obtain ⟨hg, _, _, _, h5, h6⟩ := grouped_spec arr l (r - l + 1).toNat
  refine ⟨hg, h5, h6, ?_⟩
  exact pivotFuel_val ((r - l + 1).toNat - 1) arr l r hn (by omega)

theorem pivot_median_of_medians_witness :
    (1 : Int) ≤ 9 - 0 + 1 ∧
      ((grouped (fun t : Int => [25, 21, 98, 100, 76, 22, 43, 60, 89, 42].getD t.toNat 0)
          0 ((9 : Int) - 0 + 1).toNat).2.2 = (((9 : Int) - 0 + 1).toNat + 4) / 5 ∧
        (∀ u : Nat, u < ((9 : Int) - 0 + 1).toNat / 5 →
          (grouped (fun t : Int => [25, 21, 98, 100, 76, 22, 43, 60, 89, 42].getD t.toNat 0)
            0 ((9 : Int) - 0 + 1).toNat).2.1 u =
          (List.insertionSort (fun a b : Int => a ≤ b)
            (segN (fun t : Int => [25, 21, 98, 100, 76, 22, 43, 60, 89, 42].getD t.toNat 0)
              (0 + (u : Int) * 5) 5)).getD 2 0) ∧
        (((9 : Int) - 0 + 1).toNat % 5 ≠ 0 →
          (grouped (fun t : Int => [25, 21, 98, 100, 76, 22, 43, 60, 89, 42].getD t.toNat 0)
            0 ((9 : Int) - 0 + 1).toNat).2.1 ((((9 : Int) - 0 + 1).toNat / 5 : Nat) : Int) =
          (List.insertionSort (fun a b : Int => a ≤ b)
            (segN (fun t : Int => [25, 21, 98, 100, 76, 22, 43, 60, 89, 42].getD t.toNat 0)
              (0 + ((((9 : Int) - 0 + 1).toNat / 5 : Nat) : Int) * 5)
              (((9 : Int) - 0 + 1).toNat % 5))).getD (((((9 : Int) - 0 + 1).toNat % 5)) / 2) 0) ∧
        pivotFuel (((9 : Int) - 0 + 1).toNat - 1)
            (fun t : Int => [25, 21, 98, 100, 76, 22, 43, 60, 89, 42].getD t.toNat 0) 0 9 =
          some ((grouped (fun t : Int => [25, 21, 98, 100, 76, 22, 43, 60, 89, 42].getD
              t.toNat 0) 0 ((9 : Int) - 0 + 1).toNat).1,
            if (grouped (fun t : Int => [25, 21, 98, 100, 76, 22, 43, 60, 89, 42].getD
                t.toNat 0) 0 ((9 : Int) - 0 + 1).toNat).2.2 = 1 then
              (grouped (fun t : Int => [25, 21, 98, 100, 76, 22, 43, 60, 89, 42].getD
                t.toNat 0) 0 ((9 : Int) - 0 + 1).toNat).2.1 0
            else
              kthSmallest (segN (grouped (fun t : Int =>
                  [25, 21, 98, 100, 76, 22, 43, 60, 89, 42].getD t.toNat 0)
                  0 ((9 : Int) - 0 + 1).toNat).2.1 0
                (grouped (fun t : Int => [25, 21, 98, 100, 76, 22, 43, 60, 89, 42].getD
                  t.toNat 0) 0 ((9 : Int) - 0 + 1).toNat).2.2)
                (((grouped (fun t : Int => [25, 21, 98, 100, 76, 22, 43, 60, 89, 42].getD
                  t.toNat 0) 0 ((9 : Int) - 0 + 1).toNat).2.2 + 1) / 2))) :=
  ⟨by decide, pivot_median_of_medians (fun t : Int =>
    [25, 21, 98, 100, 76, 22, 43, 60, 89, 42].getD t.toNat 0) 0 9 (by decide)⟩

/-- C7: in every call of SelectKth with a valid rank, once the pivot `pv`
(the value produced by the call's pivot computation `pivotFuel`) has been
partitioned to position `pos`, with `rank_of_pivot = pos - l + 1`: if
`rank_of_pivot = k` the call returns the pivot value now stored at `pos`; if
`rank_of_pivot > k` it returns SelectKth on `[l, pos - 1]` with the same `k`;
otherwise it returns SelectKth on `[pos + 1, r]` with rank
`k - rank_of_pivot`. -/
theorem decide_side_correct (arr : Mem) (l r k : Int) (h1 : 1 ≤ k) (h2 : k ≤ r - l + 1)
    (arrP : Mem) (pv : Int)
    (hpiv : pivotFuel ((r - l + 1).toNat - 1) arr l r = some (arrP, pv)) :
    ((particionar arrP l r pv).2 - l + 1 = k →
      (kesimoMinimo arr l r k).2 =
        (particionar arrP l r pv).1 (particionar arrP l r pv).2) ∧
    ((particionar arrP l r pv).2 - l + 1 > k →
      (kesimoMinimo arr l r k).2 =
        (kesimoMinimo (particionar arrP l r pv).1 l ((particionar arrP l r pv).2 - 1) k).2) ∧
    ((particionar arrP l r pv).2 - l + 1 < k →
      (kesimoMinimo arr l r k).2 =
        (kesimoMinimo (particionar arrP l r pv).1 ((particionar arrP l r pv).2 + 1) r
          (k - ((particionar arrP l r pv).2 - l + 1))).2) := by
  set n := (r - l + 1).toNat with hn'
  have hn1 : 1 ≤ n := by omega
  -- identify the pivot state with the one delivered by pivotAux
  obtain ⟨pv', hpiv', hpvmem⟩ :=
    pivotAux (n - 1) (kesimoFuel_master (n - 1)) arr l r (by omega) (by omega)
  rw [← hn'] at hpiv'
  rw [hpiv'] at hpiv
  obtain ⟨hA, hP⟩ : arrP = (grouped arr l n).1 ∧ pv = pv' := by
    have := hpiv.symm
    simp only [Option.some.injEq, Prod.mk.injEq] at this
    exact this
  subst hA
  subst hP
  obtain ⟨hgG, hgFrame, hgPerm, hgMem, _, _⟩ := grouped_spec arr l n
  set arrG := (grouped arr l n).1 with harrG
  have hwineq : (r + 1 - l).toNat = n := by omega
  have hpvG : pv ∈ segN arrG l (r + 1 - l).toNat := by
    rw [hwineq]
    exact hgPerm.mem_iff.mpr hpvmem
  obtain ⟨pc1, pc2, pc3, pc4, pc5, pc6, pc7⟩ := particionar_spec hpvG
  set arr3 := (particionar arrG l r pv).1 with harr3
  set pos := (particionar arrG l r pv).2 with hpos
  -- unfold one step of the wrapped recursion at fuel n
  have hfuel : (r + 1 - l).toNat = (n - 1) + 1 := by omega
  have hstep : kesimoMinimo arr l r k =
      ((if pos - l = k - 1 then some (arr3, arr3 pos)
        else if pos - l > k - 1 then kesimoFuel (n - 1) arr3 l (pos - 1) k
        else kesimoFuel (n - 1) arr3 (pos + 1) r (k - (pos - l) - 1)).getD
          (arr, 2147483647)) := by
    rw [kesimoMinimo, hfuel, kesimoFuel_succ (n - 1) arr l r k ⟨by omega, h2⟩, hpiv']
  refine ⟨?_, ?_, ?_⟩
  · intro hcase
    rw [hstep, if_pos (by omega)]
    rfl
  · intro hcase
    rw [hstep, if_neg (by omega), if_pos (by omega)]
    have hv1 : k ≤ (pos - 1) - l + 1 := by omega
    obtain ⟨arrO, hrec, _, _⟩ :=
      kesimoFuel_master (n - 1) arr3 l (pos - 1) k h1 hv1 (by omega)
    obtain ⟨hval, _, _⟩ := @kesimoMinimo_valid arr3 l (pos - 1) k h1 hv1
    rw [hrec, hval]
    rfl
  · intro hcase
    rw [hstep, if_neg (by omega), if_neg (by omega)]
    have hv1 : 1 ≤ k - (pos - l) - 1 := by omega
    have hv2 : k - (pos - l) - 1 ≤ r - (pos + 1) + 1 := by omega
    obtain ⟨arrO, hrec, _, _⟩ :=
      kesimoFuel_master (n - 1) arr3 (pos + 1) r (k - (pos - l) - 1) hv1 hv2 (by omega)
    obtain ⟨hval, _, _⟩ := @kesimoMinimo_valid arr3 (pos + 1) r (k - (pos - l) - 1) hv1 hv2
    have heq : k - (pos - l + 1) = k - (pos - l) - 1 := by ring
    rw [heq, hrec, hval]
    rfl

theorem decide_side_correct_witness :
    (1 : Int) ≤ 1 ∧ (1 : Int) ≤ 0 - 0 + 1 ∧
      ((particionar (grouped (fun _ : Int => 5) 0 ((0 : Int) - 0 + 1).toNat).1 0 0 (if (grouped (fun _ : Int => 5) 0 ((0 : Int) - 0 + 1).toNat).2.2 = 1 then (grouped (fun _ : Int => 5) 0 ((0 : Int) - 0 + 1).toNat).2.1 0 else kthSmallest (segN (grouped (fun _ : Int => 5) 0 ((0 : Int) - 0 + 1).toNat).2.1 0 (grouped (fun _ : Int => 5) 0 ((0 : Int) - 0 + 1).toNat).2.2) (((grouped (fun _ : Int => 5) 0 ((0 : Int) - 0 + 1).toNat).2.2 + 1) / 2))).2 - 0 + 1 = 1 →
        (kesimoMinimo (fun _ : Int => 5) 0 0 1).2 = (particionar (grouped (fun _ : Int => 5) 0 ((0 : Int) - 0 + 1).toNat).1 0 0 (if (grouped (fun _ : Int => 5) 0 ((0 : Int) - 0 + 1).toNat).2.2 = 1 then (grouped (fun _ : Int => 5) 0 ((0 : Int) - 0 + 1).toNat).2.1 0 else kthSmallest (segN (grouped (fun _ : Int => 5) 0 ((0 : Int) - 0 + 1).toNat).2.1 0 (grouped (fun _ : Int => 5) 0 ((0 : Int) - 0 + 1).toNat).2.2) (((grouped (fun _ : Int => 5) 0 ((0 : Int) - 0 + 1).toNat).2.2 + 1) / 2))).1 (particionar (grouped (fun _ : Int => 5) 0 ((0 : Int) - 0 + 1).toNat).1 0 0 (if (grouped (fun _ : Int => 5) 0 ((0 : Int) - 0 + 1).toNat).2.2 = 1 then (grouped (fun _ : Int => 5) 0 ((0 : Int) - 0 + 1).toNat).2.1 0 else kthSmallest (segN (grouped (fun _ : Int => 5) 0 ((0 : Int) - 0 + 1).toNat).2.1 0 (grouped (fun _ : Int => 5) 0 ((0 : Int) - 0 + 1).toNat).2.2) (((grouped (fun _ : Int => 5) 0 ((0 : Int) - 0 + 1).toNat).2.2 + 1) / 2))).2) :=
  ⟨by decide, by decide,
    (decide_side_correct (fun _ : Int => 5) 0 0 1 (by decide) (by decide) _ _
      (pivotFuel_val (((0 : Int) - 0 + 1).toNat - 1) (fun _ : Int => 5) 0 0
        (by decide) (by decide))).1⟩

/-- C8: for every window of any length `m ≥ 0` (not only `m ≤ 5`), SmallSort
(`insertionSort`) reorders it in place into non-decreasing order, keeping the
same multiset of values. -/
theorem insertionSort_sorts (arr : Mem) (base : Int) (n : Nat) :
    (segN (insertionSort arr base n) base n).Sorted (· ≤ ·) ∧
    (segN (insertionSort arr base n) base n).Perm (segN arr base n) :=
  ⟨(insertionSort_spec arr base n).1, (insertionSort_spec arr base n).2.1⟩

/-- C9: every call `kesimoMinimo(arr, l, r, k)` — with a valid or an invalid
rank — leaves every cell at an index `< l` or `> r` unchanged: all mutation
is confined to the window `[l, r]`. -/
theorem kesimoMinimo_frame (arr : Mem) (l r k t : Int) (ht : t < l ∨ r < t) :
    (kesimoMinimo arr l r k).1 t = arr t := by
  by_cases hv : 1 ≤ k ∧ k ≤ r - l + 1
  · exact (kesimoMinimo_valid hv.1 hv.2).2.2 t ht
  · rw [kesimoMinimo_invalid (by omega)]

theorem kesimoMinimo_frame_witness :
    ((-1 : Int) < 0 ∨ (9 : Int) < -1) ∧
      (kesimoMinimo (fun t : Int => [25, 21, 98, 100, 76, 22, 43, 60, 89, 42].getD
        t.toNat 0) 0 9 5).1 (-1) =
      (fun t : Int => [25, 21, 98, 100, 76, 22, 43, 60, 89, 42].getD t.toNat 0) (-1) :=
  ⟨by decide, kesimoMinimo_frame (fun t : Int =>
    [25, 21, 98, 100, 76, 22, 43, 60, 89, 42].getD t.toNat 0) 0 9 5 (-1) (by decide)⟩

/-- C10: for every power-of-two dimension `n = 2 ^ s` and all `n × n` integer
matrices `A` and `B`, `strassen` stores in the result exactly the standard
matrix product: every entry `(i, j)` with `i, j < n` equals
`sum over t < n of A i t * B t j`. -/
theorem strassen_is_matmul (s : Nat) (A B : Mat) (i j : Nat)
    (hi : i < 2 ^ s) (hj : j < 2 ^ s) :
    strassen (2 ^ s) A B i j = matMul (2 ^ s) A B i j :=
  strassen_pow2 s A B i j hi hj

theorem strassen_is_matmul_witness :
    0 < 2 ^ 1 ∧
      strassen (2 ^ 1) (fun i j => (i * 2 + j + 1 : Int)) (fun i j => (i * 2 + j + 5 : Int))
          0 0 =
        matMul (2 ^ 1) (fun i j => (i * 2 + j + 1 : Int)) (fun i j => (i * 2 + j + 5 : Int))
          0 0 :=
  ⟨by decide, strassen_is_matmul 1 (fun i j => (i * 2 + j + 1 : Int))
    (fun i j => (i * 2 + j + 5 : Int)) 0 0 (by decide) (by decide)⟩

end Kesimo
